import Mathlib

/-!
# Verification of the llmcoderagent file-review pipeline

A shallow embedding, in Lean 4, of the core logic of the `llmcoderagent`
VS Code extension (TypeScript).  Each definition mirrors one function of
the source; theorems settle the specification claims about them.

Source functions embedded here (file / symbol):
* `getLLMResponse`      — the retry dispatcher (exponential backoff);
* `applyFileChanges`    — the file mutation gate (diff / confirm / backup / write);
* `readFileContent`     — the content loader with a byte-size ceiling;
* `shouldIncludeFile`   — the include/exclude glob filter over `minimatch`;
* `reviewFile`          — the review parser (fenced block + issue lines);
* the three `LLMProvider.getResponse` reply-field extractors;
* `findFiles`           — the bounded workspace tree walk (both revisions);
* `backupFile`          — the timestamped backup path.
-/

namespace LLMCoder

/-! ## Retry Dispatcher (`getLLMResponse`, part_004 lines 358–384)

The TypeScript loop is

```
for (let attempt = 0; attempt < config.apiMaxRetries; attempt++) {
    try {
        const response = await provider.getResponse(prompt, chatHistory);
        const sanitized = sanitizeHtml(response, ...);
        return sanitized || "No response received from LLM";
    } catch (error) {
        if (attempt < config.apiMaxRetries - 1) {
            const delay = config.apiRetryDelay * Math.pow(2, attempt);
            await new Promise((resolve) => setTimeout(resolve, delay));
        } else {
            throw handleError(errorMsg, false);
        }
    }
}
throw handleError("Unexpected error in getLLMResponse");
```

The backend is modelled as a function from the 0-based attempt index to
`Option String` (`some s` = the promise resolves with `s`, `none` = it
rejects).  The sanitizer is an abstract `String → String` parameter.  The
trace records the value returned or thrown, how many `getResponse` calls
were made, and the sleeps performed, in order. -/

/-- `return sanitized || "No response received from LLM"`: an empty
sanitized string falls back to the placeholder. -/
def sanitizeFallback (sanitize : String → String) (response : String) : String :=
  let s := sanitize response
  if s = "" then "No response received from LLM" else s

/-- Observable outcome of one `getLLMResponse` run: the value returned
(`Except.ok`) or thrown (`Except.error`), the number of
`provider.getResponse` calls made, and the sleep durations in order. -/
structure RetryTrace where
  result : Except String String
  calls : Nat
  sleeps : List Nat
  deriving Repr

/-- The retry loop body, from attempt index `attempt`, with `calls` calls
and `sleeps` sleeps already accumulated. -/
def getLLMResponseGo (sanitize : String → String) (backend : Nat → Option String)
    (apiMaxRetries apiRetryDelay : Nat) (attempt calls : Nat) (sleeps : List Nat) :
    RetryTrace :=
  if _h : attempt < apiMaxRetries then
    match backend attempt with
    | some response =>
        { result := .ok (sanitizeFallback sanitize response), calls := calls + 1,
          sleeps := sleeps }
    | none =>
        if attempt < apiMaxRetries - 1 then
          getLLMResponseGo sanitize backend apiMaxRetries apiRetryDelay (attempt + 1)
            (calls + 1) (sleeps ++ [apiRetryDelay * 2 ^ attempt])
        else
          { result := .error ("Failed to fetch response (All " ++ toString apiMaxRetries ++
              " retries failed)"),
            calls := calls + 1, sleeps := sleeps }
  else
    { result := .error "Unexpected error in getLLMResponse", calls := calls,
      sleeps := sleeps }
  termination_by apiMaxRetries - attempt

/-- `getLLMResponse(prompt, config, history, provider)`, started at
attempt 0 with nothing accumulated. -/
def getLLMResponse (sanitize : String → String) (backend : Nat → Option String)
    (apiMaxRetries apiRetryDelay : Nat) : RetryTrace :=
  getLLMResponseGo sanitize backend apiMaxRetries apiRetryDelay 0 0 []

theorem getLLMResponseGo_allfail (sanitize : String → String)
    (backend : Nat → Option String) (R d : Nat)
    (hfail : ∀ i, i < R → backend i = none) :
    ∀ n a c s, R - a = n + 1 →
      getLLMResponseGo sanitize backend R d a c s =
        { result := .error ("Failed to fetch response (All " ++ toString R ++
            " retries failed)"),
          calls := c + (R - a),
          sleeps := s ++ (List.range' a (R - 1 - a)).map (fun i => d * 2 ^ i) } := by
  intro n
  induction n with
  | zero =>
      intro a c s h
      have ha : a < R := by omega
      have ha' : ¬ a < R - 1 := by omega
      rw [getLLMResponseGo]
      simp only [ha, dif_pos, hfail a ha, ha', if_neg, not_false_iff]
      have : R - 1 - a = 0 := by omega
      simp [this]
      omega
  | succ n ih =>
      intro a c s h
      have ha : a < R := by omega
      have ha' : a < R - 1 := by omega
      rw [getLLMResponseGo]
      simp only [ha, dif_pos, hfail a ha, ha', if_pos]
      rw [ih (a + 1) (c + 1) _ (by omega)]
      have h1 : R - 1 - a = (R - 1 - (a + 1)) + 1 := by omega
      rw [h1, List.range'_succ, List.map_cons]
      simp only [List.append_assoc, List.singleton_append]
      congr 1
      omega

theorem getLLMResponseGo_success (sanitize : String → String)
    (backend : Nat → Option String) (R d k : Nat) (r : String)
    (hk : k < R) (hbefore : ∀ i, i < k → backend i = none)
    (hsucc : backend k = some r) :
    ∀ n a c s, k - a = n → a ≤ k →
      getLLMResponseGo sanitize backend R d a c s =
        { result := .ok (sanitizeFallback sanitize r),
          calls := c + (k - a) + 1,
          sleeps := s ++ (List.range' a (k - a)).map (fun i => d * 2 ^ i) } := by
  intro n
  induction n with
  | zero =>
      intro a c s h ha
      have hak : a = k := by omega
      subst hak
      rw [getLLMResponseGo]
      simp [hk, hsucc]
  | succ n ih =>
      intro a c s h ha
      have haR : a < R := by omega
      have hak : a < k := by omega
      have ha' : a < R - 1 := by omega
      rw [getLLMResponseGo]
      simp only [haR, dif_pos, hbefore a hak, ha', if_pos]
      rw [ih (a + 1) (c + 1) _ (by omega) (by omega)]
      have h1 : k - a = (k - (a + 1)) + 1 := by omega
      rw [h1, List.range'_succ, List.map_cons]
      simp only [List.append_assoc, List.singleton_append]
      congr 1
      omega

theorem delay_chain (d : Nat) : ∀ n a,
    List.Chain' (· ≤ ·) ((List.range' a n).map (fun i => d * 2 ^ i)) := by
  intro n
  induction n with
  | zero => intro a; simp
  | succ n ih =>
      intro a
      rw [List.range'_succ, List.map_cons]
      cases n with
      | zero => simp
      | succ m =>
          have hrec := ih (a + 1)
          rw [List.range'_succ, List.map_cons] at hrec ⊢
          rw [List.chain'_cons]
          refine ⟨?_, hrec⟩
          exact Nat.mul_le_mul_left d (Nat.pow_le_pow_right (by norm_num) (by omega))

/-- C1: Retry Dispatcher.  With `maxRetries = R ≥ 1`: on a backend that
fails every attempt, exactly `R` calls to `getResponse` are made, the
sleep after failed attempt `i` (before the next retry) is
`baseDelay * 2 ^ i`, and the sleep sequence is non-decreasing; if the
backend fails on attempts `0 … k-1` and succeeds on attempt `k < R`, the
sanitized response is returned and exactly `k + 1` calls are made — no
further attempts happen. -/
theorem retry_dispatcher_spec (sanitize : String → String) (R d : Nat)
    (hR : 1 ≤ R) :
    (∀ backend : Nat → Option String, (∀ i, i < R → backend i = none) →
      (getLLMResponse sanitize backend R d).calls = R ∧
      (getLLMResponse sanitize backend R d).sleeps =
        (List.range (R - 1)).map (fun i => d * 2 ^ i) ∧
      List.Chain' (· ≤ ·) (getLLMResponse sanitize backend R d).sleeps ∧
      ∃ e, (getLLMResponse sanitize backend R d).result = .error e) ∧
    (∀ (backend : Nat → Option String) (k : Nat) (r : String),
      k < R → (∀ i, i < k → backend i = none) → backend k = some r →
      (getLLMResponse sanitize backend R d).result =
        .ok (sanitizeFallback sanitize r) ∧
      (getLLMResponse sanitize backend R d).calls = k + 1) := by
  constructor
  · intro backend hfail
    have h := getLLMResponseGo_allfail sanitize backend R d hfail (R - 1) 0 0 []
      (by omega)
    unfold getLLMResponse
    rw [h]
    refine ⟨?_, ?_, ?_, ⟨_, rfl⟩⟩
    · show 0 + (R - 0) = R
      omega
    · show [] ++ _ = _
      simp [List.range_eq_range']
    · show List.Chain' (· ≤ ·) ([] ++ _)
      simpa using delay_chain d (R - 1 - 0) 0
  · intro backend k r hk hbefore hsucc
    have h := getLLMResponseGo_success sanitize backend R d k r hk hbefore hsucc
      k 0 0 [] (by omega) (by omega)
    unfold getLLMResponse
    rw [h]
    refine ⟨rfl, ?_⟩
    show 0 + (k - 0) + 1 = k + 1
    omega

/-- Witness for `retry_dispatcher_spec` at `R = 3`, `d = 100`, a backend
that always fails, and one that succeeds on attempt 1. -/
theorem retry_dispatcher_spec_witness :
    (getLLMResponse id (fun _ => none) 3 100).calls = 3 ∧
    (getLLMResponse id (fun _ => none) 3 100).sleeps = [100, 200] ∧
    (getLLMResponse id (fun i => if i = 1 then some "hi" else none) 3 100).result =
      .ok "hi" ∧
    (getLLMResponse id (fun i => if i = 1 then some "hi" else none) 3 100).calls = 2 := by
  have h := retry_dispatcher_spec id 3 100 (by decide)
  have h1 := h.1 (fun _ => none) (fun _ _ => rfl)
  have h2 := h.2 (fun i => if i = 1 then some "hi" else none) 1 "hi" (by decide)
    (by intro i hi; interval_cases i; rfl) (by rfl)
  refine ⟨h1.1, ?_, ?_, h2.2⟩
  · rw [h1.2.1]; rfl
  · rw [h2.1]; rfl

/-! ## File Mutation Gate (`applyFileChanges`, extension.ts lines 130–195)

```
const document = await vscode.workspace.openTextDocument(uri);
const currentContent = document.getText();
if (currentContent === newContent) { ...; return false; }
const autoApply = config.get<boolean>("autoApplyChanges", false);
if (!autoApply) {
    ... show diff ...
    const apply = await vscode.window.showInformationMessage(...);
    if (apply !== "Apply") { return false; }
}
await backupFile(uri);                // copy to `${uri.fsPath}.bak.${timestamp}`
... edit.replace(uri, fullRange, newContent); await vscode.workspace.applyEdit(edit);
await document.save();
return true;
```

with the whole body inside a `try { … } catch { …; return false; }`.
The disk is modelled as an association list from paths to contents (most
recent write first); the user's answer to the confirmation prompt and
whether the write step throws are Boolean parameters. -/

abbrev FileSystem := List (String × String)

def FileSystem.lookup : FileSystem → String → Option String
  | [], _ => none
  | (q, c) :: fs, p => if p = q then some c else FileSystem.lookup fs p

def FileSystem.write (fs : FileSystem) (path content : String) : FileSystem :=
  (path, content) :: fs

/-- `backupFile` (extension.ts lines 114–128): the timestamped backup
path is `` `${uri.fsPath}.bak.${timestamp}` ``. -/
def backupPath (path : String) (timestamp : Nat) : String :=
  path ++ ".bak." ++ toString timestamp

/-- `applyFileChanges(uri, newContent, config)`.  Returns the Boolean
result and the final file system.  `userConfirms` is the answer to the
`Apply`/`Cancel` prompt; `writeFails` makes the apply/save step throw
(caught by the surrounding `try`, which returns `false`). -/
def applyFileChanges (fs : FileSystem) (path newContent : String)
    (autoApplyChanges userConfirms writeFails : Bool) (timestamp : Nat) :
    Bool × FileSystem :=
  match fs.lookup path with
  | none => (false, fs)
  | some currentContent =>
    if currentContent = newContent then
      (false, fs)
    else if !autoApplyChanges && !userConfirms then
      (false, fs)
    else
      let fs1 := fs.write (backupPath path timestamp) currentContent
      if writeFails then (false, fs1)
      else (true, fs1.write path newContent)

theorem FileSystem.lookup_write_self (fs : FileSystem) (p c : String) :
    (fs.write p c).lookup p = some c := by
  simp [FileSystem.write, FileSystem.lookup]

theorem FileSystem.lookup_write_ne (fs : FileSystem) (p c q : String)
    (h : q ≠ p) : (fs.write p c).lookup q = fs.lookup q := by
  simp [FileSystem.write, FileSystem.lookup, h]

theorem backupPath_ne (path : String) (ts : Nat) : backupPath path ts ≠ path := by
  intro h
  have hlen := congrArg String.length h
  rw [backupPath, String.length_append, String.length_append] at hlen
  have h5 : (".bak." : String).length = 5 := rfl
  omega

/-- C2: File Mutation Gate.  If the proposed replacement equals the
current content, the call is a no-op returning `false` and the file
system is untouched (no backup).  If the content differs and the change
is auto-applied or confirmed, the timestamped backup holds the original
content; when the write succeeds the call returns `true`, the target
holds the new content, and no other path changed; when the write fails
the call returns `false` and the target still holds its original content
byte for byte. -/
theorem mutation_gate_spec (fs : FileSystem) (path newC c : String)
    (auto conf wf : Bool) (ts : Nat) (hcur : fs.lookup path = some c) :
    (c = newC → applyFileChanges fs path newC auto conf wf ts = (false, fs)) ∧
    (c ≠ newC → (auto = true ∨ conf = true) →
      ((applyFileChanges fs path newC auto conf wf ts).2).lookup
          (backupPath path ts) = some c ∧
      (wf = false →
        (applyFileChanges fs path newC auto conf wf ts).1 = true ∧
        ((applyFileChanges fs path newC auto conf wf ts).2).lookup path =
          some newC ∧
        ∀ q, q ≠ path → q ≠ backupPath path ts →
          ((applyFileChanges fs path newC auto conf wf ts).2).lookup q =
            fs.lookup q) ∧
      (wf = true →
        (applyFileChanges fs path newC auto conf wf ts).1 = false ∧
        ((applyFileChanges fs path newC auto conf wf ts).2).lookup path =
          some c)) := by
  have hgate : (!auto && !conf) = true ↔ ¬(auto = true ∨ conf = true) := by
    cases auto <;> cases conf <;> simp
  constructor
  · intro hEq
    simp [applyFileChanges, hcur, hEq]
  · intro hNe hconf
    have hgate' : (!auto && !conf) = false := by
      cases auto <;> cases conf <;> simp_all
    cases wf with
    | false =>
        have hred : applyFileChanges fs path newC auto conf false ts =
            (true, (fs.write (backupPath path ts) c).write path newC) := by
          simp [applyFileChanges, hcur, hNe, hgate']
        refine ⟨?_, fun _ => ⟨?_, ?_, ?_⟩, by simp⟩
        · rw [hred]
          show ((fs.write (backupPath path ts) c).write path newC).lookup
            (backupPath path ts) = some c
          rw [FileSystem.lookup_write_ne _ path newC _ (backupPath_ne path ts)]
          exact FileSystem.lookup_write_self fs _ c
        · rw [hred]
        · rw [hred]
          exact FileSystem.lookup_write_self _ _ _
        · intro q hq1 hq2
          rw [hred]
          show ((fs.write (backupPath path ts) c).write path newC).lookup q =
            fs.lookup q
          rw [FileSystem.lookup_write_ne _ _ _ _ hq1,
            FileSystem.lookup_write_ne _ _ _ _ hq2]
    | true =>
        have hred : applyFileChanges fs path newC auto conf true ts =
            (false, fs.write (backupPath path ts) c) := by
          simp [applyFileChanges, hcur, hNe, hgate']
        refine ⟨?_, by simp, fun _ => ⟨?_, ?_⟩⟩
        · rw [hred]
          exact FileSystem.lookup_write_self _ _ _
        · rw [hred]
        · rw [hred]
          show (fs.write (backupPath path ts) c).lookup path = some c
          rw [FileSystem.lookup_write_ne _ _ _ _ (Ne.symm (backupPath_ne path ts))]
          exact hcur

/-- Witness for `mutation_gate_spec` on a one-file disk. -/
theorem mutation_gate_spec_witness :
    (applyFileChanges [("a.ts", "old")] "a.ts" "old" false true false 5 =
      (false, [("a.ts", "old")])) ∧
    ((applyFileChanges [("a.ts", "old")] "a.ts" "new" false true false 5).1 = true ∧
      ((applyFileChanges [("a.ts", "old")] "a.ts" "new" false true false 5).2).lookup
        "a.ts" = some "new" ∧
      ((applyFileChanges [("a.ts", "old")] "a.ts" "new" false true false 5).2).lookup
        "a.ts.bak.5" = some "old") ∧
    ((applyFileChanges [("a.ts", "old")] "a.ts" "new" false true true 5).1 = false ∧
      ((applyFileChanges [("a.ts", "old")] "a.ts" "new" false true true 5).2).lookup
        "a.ts" = some "old") := by
  have h1 := mutation_gate_spec [("a.ts", "old")] "a.ts" "old" "old" false true false 5
    (by rfl)
  have h2 := mutation_gate_spec [("a.ts", "old")] "a.ts" "new" "old" false true false 5
    (by rfl)
  have h3 := mutation_gate_spec [("a.ts", "old")] "a.ts" "new" "old" false true true 5
    (by rfl)
  have hb : backupPath "a.ts" 5 = "a.ts.bak.5" := rfl
  have h2' := h2.2 (by decide) (Or.inr rfl)
  have h3' := h3.2 (by decide) (Or.inr rfl)
  refine ⟨h1.1 rfl, ⟨(h2'.2.1 rfl).1, (h2'.2.1 rfl).2.1, hb ▸ h2'.1⟩,
    (h3'.2.2 rfl).1, (h3'.2.2 rfl).2⟩

/-! ## Content Loader (`readFileContent`, part_004 lines 303–320,
extension.ts lines 91–112)

```
const stat = await vscode.workspace.fs.stat(uri);
if (stat.size > config.maxFileSize) {
    throw handleError(`File size (${stat.size} bytes) exceeds limit of ${config.maxFileSize}`);
}
const content = await vscode.workspace.fs.readFile(uri);
const decoded = new TextDecoder().decode(content);
return decoded;
```

A file is its stat-reported size plus raw bytes; the UTF-8 decoder is an
abstract parameter. -/

structure FileData where
  size : Nat
  bytes : List Nat
  deriving Repr

def readFileContent (decode : List Nat → String) (f : FileData)
    (maxFileSize : Nat) : Except String String :=
  if f.size > maxFileSize then
    .error ("File size (" ++ toString f.size ++ " bytes) exceeds limit of " ++
      toString maxFileSize)
  else
    .ok (decode f.bytes)

/-- The per-file pipeline prefix of `reviewFile`: load the content, and
only if that succeeds dispatch to the backend through the retry loop.
Returns the outcome and the number of backend `getResponse` calls. -/
def reviewFileDispatch (decode : List Nat → String) (sanitize : String → String)
    (backend : Nat → Option String) (f : FileData)
    (maxFileSize apiMaxRetries apiRetryDelay : Nat) :
    Except String String × Nat :=
  match readFileContent decode f maxFileSize with
  | .error e => (.error e, 0)
  | .ok _content =>
      let t := getLLMResponse sanitize backend apiMaxRetries apiRetryDelay
      (t.result, t.calls)

/-- C3: Content Loader.  A file whose stat size strictly exceeds the
ceiling fails with the file-too-large error and causes zero backend
calls; a file whose size equals the ceiling exactly is accepted and its
decoded content returned (inclusive boundary). -/
theorem content_loader_spec (decode : List Nat → String)
    (sanitize : String → String) (backend : Nat → Option String)
    (f : FileData) (maxFileSize R d : Nat) :
    (f.size > maxFileSize →
      readFileContent decode f maxFileSize =
        .error ("File size (" ++ toString f.size ++ " bytes) exceeds limit of " ++
          toString maxFileSize) ∧
      (reviewFileDispatch decode sanitize backend f maxFileSize R d).2 = 0) ∧
    (f.size = maxFileSize →
      readFileContent decode f maxFileSize = .ok (decode f.bytes)) := by
  constructor
  · intro hgt
    have h : readFileContent decode f maxFileSize =
        .error ("File size (" ++ toString f.size ++ " bytes) exceeds limit of " ++
          toString maxFileSize) := by
      simp [readFileContent, hgt]
    exact ⟨h, by simp [reviewFileDispatch, h]⟩
  · intro heq
    simp [readFileContent, heq]

/-- Witness for `content_loader_spec`: ceiling 100, sizes 101 and 100. -/
theorem content_loader_spec_witness :
    (reviewFileDispatch (fun _ => "text") id (fun _ => some "ok")
      ⟨101, []⟩ 100 3 50).2 = 0 ∧
    readFileContent (fun _ => "text") ⟨100, [104, 105]⟩ 100 = .ok "text" := by
  have h1 := (content_loader_spec (fun _ => "text") id (fun _ => some "ok")
    ⟨101, []⟩ 100 3 50).1 (by decide)
  have h2 := (content_loader_spec (fun _ => "text") id (fun _ => some "ok")
    ⟨100, [104, 105]⟩ 100 3 50).2 rfl
  exact ⟨h1.2, h2⟩

/-! ## Inclusion Filter (`shouldIncludeFile`, extension.ts lines 55–89,
part_004 lines 295–301)

```
try {
    const includePatterns = config.get<string[]>("includePatterns", [...]);
    const excludePatterns = config.get<string[]>("excludePatterns", [...]);
    const relativePath = vscode.workspace.asRelativePath(uri);
    const included = includePatterns.some((pattern) => minimatch(relativePath, pattern));
    const excluded = excludePatterns.some((pattern) => minimatch(relativePath, pattern));
    return included && !excluded;
} catch (error) {
    log(...);
    return false;
}
```

`Array.prototype.some` with a callback that may throw is modelled in the
`Except Unit` monad; the surrounding `try`/`catch` maps an error to
`false` (fail closed). -/

/-- JS `Array.prototype.some` with a possibly-throwing callback:
elements are tested in order, the first `true` short-circuits, a throw
propagates. -/
def someE (f : α → Except Unit Bool) : List α → Except Unit Bool
  | [] => .ok false
  | x :: xs => do
      if (← f x) then pure true else someE f xs

/-- `shouldIncludeFile`, parameterized by the pattern matcher (which may
throw on a malformed pattern). -/
def shouldIncludeFileWith (m : String → String → Except Unit Bool)
    (relativePath : String) (includePatterns excludePatterns : List String) :
    Bool :=
  match (do
    let included ← someE (fun pat => m relativePath pat) includePatterns
    let excluded ← someE (fun pat => m relativePath pat) excludePatterns
    pure (included && !excluded) : Except Unit Bool) with
  | .ok b => b
  | .error _ => false

theorem except_pure_eq (a : α) : (pure a : Except ε α) = Except.ok a := rfl

theorem except_bind_ok (a : α) (f : α → Except ε β) :
    (Except.ok a >>= f) = f a := rfl

theorem except_bind_err (e : ε) (f : α → Except ε β) :
    ((Except.error e : Except ε α) >>= f) = Except.error e := rfl

theorem except_map_err (e : ε) (f : α → β) :
    (f <$> (Except.error e : Except ε α)) = Except.error e := rfl

theorem except_map_ok (a : α) (f : α → β) :
    (f <$> (Except.ok a : Except ε α)) = Except.ok (f a) := rfl

theorem someE_total (g : α → Bool) (l : List α) :
    someE (fun x => .ok (g x)) l = .ok (l.any g) := by
  induction l with
  | nil => rfl
  | cons x xs ih =>
      simp only [someE, List.any_cons]
      cases hx : g x <;> simp [hx, ih, except_bind_ok, except_pure_eq]

/-- C4: Inclusion Filter.  With a total matcher the result is `true` iff
the path matches at least one include pattern and no exclude pattern;
with any matcher, a matching error in the include pass or in the exclude
pass yields `false` (fail closed). -/
theorem inclusion_filter_spec :
    (∀ (match' : String → String → Bool) (path : String)
        (inc exc : List String),
      shouldIncludeFileWith (fun p pat => .ok (match' p pat)) path inc exc =
        (inc.any (fun pat => match' path pat) &&
          !(exc.any (fun pat => match' path pat)))) ∧
    (∀ (m : String → String → Except Unit Bool) (path : String)
        (inc exc : List String),
      (someE (fun pat => m path pat) inc = .error () →
        shouldIncludeFileWith m path inc exc = false) ∧
      (someE (fun pat => m path pat) exc = .error () →
        shouldIncludeFileWith m path inc exc = false)) := by
  constructor
  · intro match' path inc exc
    simp [shouldIncludeFileWith, someE_total, except_bind_ok]
  · intro m path inc exc
    constructor
    · intro herr
      simp [shouldIncludeFileWith, herr, except_bind_err, except_map_err]
    · intro herr
      unfold shouldIncludeFileWith
      cases hinc : someE (fun pat => m path pat) inc with
      | error e => simp [except_bind_err, except_map_err]
      | ok b => simp [herr, except_bind_ok, except_bind_err, except_map_err,
          except_map_ok]

/-- Witness for `inclusion_filter_spec`: a total matcher on a two-element
include list, and a matcher that always throws. -/
theorem inclusion_filter_spec_witness :
    shouldIncludeFileWith (fun p pat => .ok (decide (p = pat))) "a" ["b", "a"] ["c"]
      = true ∧
    shouldIncludeFileWith (fun _ _ => .error ()) "a" ["b"] [] = false := by
  have h1 := inclusion_filter_spec.1 (fun p pat => decide (p = pat)) "a" ["b", "a"] ["c"]
  have h2 := (inclusion_filter_spec.2 (fun _ _ => .error ()) "a" ["b"] []).1 rfl
  exact ⟨by rw [h1]; decide, h2⟩

/-! ## Glob matching (the `minimatch` library, as used by the filter)

The filter calls `minimatch(relativePath, pattern)`.  The model below
covers the feature subset the extension's patterns use: brace alternation
(expanded first, as minimatch does), `/`-separated segments, `**` as a
whole segment matching zero or more path segments, `*` and `?` inside a
segment, and the default `dot: false` rule — a wildcard never matches a
leading `.` in a name, and `**` does not traverse dot-segments. -/

/-- Split on a separator character (both paths and patterns split on
`'/'`; brace bodies split on `','`). -/
def splitOnChar (sep : Char) : List Char → List Char → List (List Char)
  | [], acc => [acc.reverse]
  | c :: cs, acc =>
      if c = sep then acc.reverse :: splitOnChar sep cs []
      else splitOnChar sep cs (c :: acc)

def splitSegs (cs : List Char) : List (List Char) := splitOnChar '/' cs []

/-- Scan for the first occurrence of `c`, returning the part before it
and the part after it. -/
def breakAtChar (c : Char) : List Char → Option (List Char × List Char)
  | [] => none
  | x :: xs =>
      if x = c then some ([], xs)
      else (breakAtChar c xs).map (fun p => (x :: p.1, p.2))

/-- Brace alternation, expanded before glob matching (as minimatch does):
`a{x,y}b` becomes `axb` and `ayb`.  `fuel` bounds the recursion. -/
def braceExpand : Nat → List Char → List (List Char)
  | 0, cs => [cs]
  | fuel + 1, cs =>
      match breakAtChar '{' cs with
      | none => [cs]
      | some (pre, rest) =>
          match breakAtChar '}' rest with
          | none => [cs]
          | some (body, post) =>
              (splitOnChar ',' body []).flatMap
                (fun alt => braceExpand fuel (pre ++ alt ++ post))

/-- `anySuffix f cs`: does `f` hold of some suffix of `cs`?  (`*`
matching zero or more characters means: the rest of the pattern matches
some suffix of the name.) -/
def anySuffix (f : List Char → Bool) : List Char → Bool
  | [] => f []
  | c :: cs => f (c :: cs) || anySuffix f cs

/-- Glob matching inside one segment: `*` matches zero or more
characters, `?` matches one, anything else is literal. -/
def globChars : List Char → List Char → Bool
  | [], cs => cs.isEmpty
  | p :: ps, cs =>
      if p = '*' then anySuffix (globChars ps) cs
      else
        match cs with
        | [] => false
        | c :: cs2 => (if p = '?' then true else decide (p = c)) && globChars ps cs2

/-- One pattern segment against one name segment, with the default
`dot: false` rule: a name starting with `.` is only matched by a pattern
starting with a literal `.`. -/
def matchSegment (pat name : List Char) : Bool :=
  if name.head? = some '.' && !(pat.head? = some '.') then false
  else globChars pat name

/-- `anyDropSeg f ns`: does `f` hold after dropping zero or more leading
name segments, none of which may start with `.`?  (This is `**`.) -/
def anyDropSeg (f : List (List Char) → Bool) : List (List Char) → Bool
  | [] => f []
  | n :: ns => f (n :: ns) || (!(n.head? = some '.') && anyDropSeg f ns)

/-- Segment-list matching: `**` (a whole pattern segment) matches zero or
more name segments, none of which may start with `.`. -/
def matchSegs : List (List Char) → List (List Char) → Bool
  | [], ns => ns.isEmpty
  | p :: ps, ns =>
      if p = ['*', '*'] then anyDropSeg (matchSegs ps) ns
      else
        match ns with
        | [] => false
        | n :: ns2 => matchSegment p n && matchSegs ps ns2

/-- `minimatch(path, pattern)`: expand braces, then match any expansion
segment-wise. -/
def minimatch (path pattern : String) : Bool :=
  (braceExpand pattern.data.length pattern.data).any
    (fun pat => matchSegs (splitSegs pat) (splitSegs path.data))

/-- `shouldIncludeFile` with the concrete minimatch model (the matcher
itself never throws here). -/
def shouldIncludeFile (relativePath : String)
    (includePatterns excludePatterns : List String) : Bool :=
  shouldIncludeFileWith (fun p pat => .ok (minimatch p pat)) relativePath
    includePatterns excludePatterns

/-- Default `includePatterns` (`getConfig`, part_004 line 272). -/
def defaultIncludePatterns : List String := ["**/*.{ts,js,py,md}"]

/-- Default `excludePatterns` (`getConfig`, part_004 lines 273–281). -/
def defaultExcludePatterns : List String :=
  ["**/node_modules/**", "**/.git/**", "**/dist/**", "**/build/**",
   "**/*.log", "**/*.lock", "**/*.bak.*"]

/-! ## Backup paths are never review candidates (C10 machinery) -/

theorem shouldIncludeFile_eq (path : String) (inc exc : List String) :
    shouldIncludeFile path inc exc =
      (inc.any (fun pat => minimatch path pat) &&
        !(exc.any (fun pat => minimatch path pat))) := by
  simp [shouldIncludeFile, shouldIncludeFileWith, someE_total, except_bind_ok]

theorem digitChar_isDigit (m : Nat) (h : m < 10) :
    (Nat.digitChar m).isDigit = true := by
  interval_cases m <;> decide

theorem toDigitsCore_digits : ∀ (fuel n : Nat) (acc : List Char),
    (∀ c ∈ acc, c.isDigit = true) →
    ∀ c ∈ Nat.toDigitsCore 10 fuel n acc, c.isDigit = true := by
  intro fuel
  induction fuel with
  | zero =>
      intro n acc hacc
      rw [Nat.toDigitsCore]
      exact hacc
  | succ fuel ih =>
      intro n acc hacc
      rw [Nat.toDigitsCore]
      have hd : (Nat.digitChar (n % 10)).isDigit = true :=
        digitChar_isDigit _ (Nat.mod_lt _ (by norm_num))
      by_cases h10 : n / 10 = 0
      · simp only [h10, if_true]
        intro c hc
        rcases List.mem_cons.mp hc with h | h
        · exact h ▸ hd
        · exact hacc c h
      · simp only [h10, if_false]
        exact ih (n / 10) _ (fun c hc => by
          rcases List.mem_cons.mp hc with h | h
          · exact h ▸ hd
          · exact hacc c h)

theorem toDigitsCore_acc_suffix : ∀ (fuel n : Nat) (acc : List Char),
    ∃ l, Nat.toDigitsCore 10 fuel n acc = l ++ acc := by
  intro fuel
  induction fuel with
  | zero =>
      intro n acc
      exact ⟨[], by rw [Nat.toDigitsCore]; rfl⟩
  | succ fuel ih =>
      intro n acc
      rw [Nat.toDigitsCore]
      by_cases h10 : n / 10 = 0
      · exact ⟨[Nat.digitChar (n % 10)], by simp [h10]⟩
      · obtain ⟨l, hl⟩ := ih (n / 10) (Nat.digitChar (n % 10) :: acc)
        refine ⟨l ++ [Nat.digitChar (n % 10)], ?_⟩
        simp only [h10, if_false, hl, List.append_assoc, List.singleton_append]

theorem repr_data_last_digit (n : Nat) :
    ∃ l c, (Nat.repr n).data = l ++ [c] ∧ c.isDigit = true := by
  have hd : (Nat.digitChar (n % 10)).isDigit = true :=
    digitChar_isDigit _ (Nat.mod_lt _ (by norm_num))
  show ∃ l c, Nat.toDigits 10 n = l ++ [c] ∧ c.isDigit = true
  rw [Nat.toDigits, Nat.toDigitsCore]
  by_cases h10 : n / 10 = 0
  · exact ⟨[], Nat.digitChar (n % 10), by simp [h10], hd⟩
  · obtain ⟨l, hl⟩ := toDigitsCore_acc_suffix n (n / 10) [Nat.digitChar (n % 10)]
    exact ⟨l, Nat.digitChar (n % 10), by simp [h10, hl], hd⟩

theorem repr_data_digits (n : Nat) :
    ∀ c ∈ (Nat.repr n).data, c.isDigit = true := by
  show ∀ c ∈ Nat.toDigits 10 n, c.isDigit = true
  rw [Nat.toDigits]
  exact toDigitsCore_digits (n + 1) n [] (by simp)

theorem globChars_cons (p : Char) (ps cs : List Char) :
    globChars (p :: ps) cs =
      if p = '*' then anySuffix (globChars ps) cs
      else
        match cs with
        | [] => false
        | c :: cs2 => (if p = '?' then true else decide (p = c)) && globChars ps cs2 :=
  rfl

theorem anySuffix_cons (f : List Char → Bool) (c : Char) (cs : List Char) :
    anySuffix f (c :: cs) = (f (c :: cs) || anySuffix f cs) := rfl

theorem anyDropSeg_cons (f : List (List Char) → Bool) (n : List Char)
    (ns : List (List Char)) :
    anyDropSeg f (n :: ns) =
      (f (n :: ns) || (!(n.head? = some '.') && anyDropSeg f ns)) := rfl

theorem globChars_literal : ∀ (lits : List Char),
    (∀ c ∈ lits, c ≠ '*' ∧ c ≠ '?') →
    ∀ cs, globChars lits cs = true → cs = lits := by
  intro lits
  induction lits with
  | nil =>
      intro _ cs h
      exact List.isEmpty_iff.mp h
  | cons p ps ih =>
      intro hlit cs h
      have hp := hlit p (List.mem_cons_self p ps)
      rw [globChars_cons, if_neg hp.1] at h
      cases cs with
      | nil => simp at h
      | cons c cs2 =>
          simp only [if_neg hp.2, Bool.and_eq_true, decide_eq_true_eq] at h
          have hcs : cs2 = ps := ih (fun c hc => hlit c (List.mem_cons_of_mem _ hc))
            cs2 h.2
          rw [← h.1, hcs]

theorem globChars_star_suffix (lits : List Char)
    (hlit : ∀ c ∈ lits, c ≠ '*' ∧ c ≠ '?') :
    ∀ cs, globChars ('*' :: lits) cs = true → lits <:+ cs := by
  have hstar : ∀ cs, globChars ('*' :: lits) cs = anySuffix (globChars lits) cs := by
    intro cs
    rw [globChars_cons, if_pos rfl]
  intro cs
  rw [hstar]
  induction cs with
  | nil =>
      intro h
      have h' : globChars lits [] = true := h
      have heq := globChars_literal lits hlit [] h'
      rw [← heq]
  | cons c cs2 ih =>
      intro h
      rw [anySuffix_cons] at h
      rcases Bool.or_eq_true_iff.mp h with h1 | h2
      · have heq := globChars_literal lits hlit _ h1
        rw [← heq]
      · exact (ih h2).trans (List.suffix_cons c cs2)

theorem matchSegs_cons (p : List Char) (ps ns : List (List Char)) :
    matchSegs (p :: ps) ns =
      if p = ['*', '*'] then anyDropSeg (matchSegs ps) ns
      else
        match ns with
        | [] => false
        | n :: ns2 => matchSegment p n && matchSegs ps ns2 := rfl

theorem matchSegs_singleton (pat : List Char) (hpat : pat ≠ ['*', '*']) :
    ∀ ns, matchSegs [pat] ns = true →
      ∃ n, ns = [n] ∧ matchSegment pat n = true := by
  intro ns h
  rw [matchSegs_cons, if_neg hpat] at h
  cases ns with
  | nil => simp at h
  | cons n ns2 =>
      simp only [Bool.and_eq_true] at h
      refine ⟨n, ?_, h.1⟩
      have h2 : ns2.isEmpty = true := h.2
      rw [List.isEmpty_iff.mp h2]

theorem matchSegs_globstar_last (pat : List Char) (hpat : pat ≠ ['*', '*']) :
    ∀ ns, matchSegs [['*', '*'], pat] ns = true →
      ∃ n, ns.getLast? = some n ∧ matchSegment pat n = true := by
  have hred : ∀ ns, matchSegs [['*', '*'], pat] ns =
      anyDropSeg (matchSegs [pat]) ns := by
    intro ns
    rw [matchSegs_cons, if_pos rfl]
  intro ns
  rw [hred]
  induction ns with
  | nil =>
      intro h
      have h' : matchSegs [pat] [] = true := h
      obtain ⟨n, hn, _⟩ := matchSegs_singleton pat hpat [] h'
      exact absurd hn (by simp)
  | cons n ns2 ih =>
      intro h
      rw [anyDropSeg_cons] at h
      rcases Bool.or_eq_true_iff.mp h with h1 | h2
      · obtain ⟨m, hm, hmatch⟩ := matchSegs_singleton pat hpat _ h1
        refine ⟨m, ?_, hmatch⟩
        rw [hm]
        rfl
      · simp only [Bool.and_eq_true] at h2
        obtain ⟨m, hlast, hmatch⟩ := ih h2.2
        refine ⟨m, ?_, hmatch⟩
        show (List.getLast? ([n] ++ ns2)) = some m
        rw [List.getLast?_append, hlast]
        rfl

theorem splitOnChar_noSep (sep : Char) (s : List Char)
    (hs : ∀ c ∈ s, c ≠ sep) :
    ∀ acc, splitOnChar sep s acc = [acc.reverse ++ s] := by
  induction s with
  | nil => intro acc; rw [splitOnChar]; simp
  | cons c cs ih =>
      intro acc
      rw [splitOnChar, if_neg (hs c (List.mem_cons_self c cs))]
      rw [ih (fun x hx => hs x (List.mem_cons_of_mem _ hx)) (c :: acc)]
      simp

theorem splitOnChar_append_noSep (sep : Char) (s : List Char)
    (hs : ∀ c ∈ s, c ≠ sep) :
    ∀ (xs acc : List Char), ∃ pre last,
      splitOnChar sep xs acc = pre ++ [last] ∧
      splitOnChar sep (xs ++ s) acc = pre ++ [last ++ s] := by
  intro xs
  induction xs with
  | nil =>
      intro acc
      refine ⟨[], acc.reverse, by rw [splitOnChar]; simp, ?_⟩
      rw [List.nil_append, splitOnChar_noSep sep s hs acc]
      rfl
  | cons x xs' ih =>
      intro acc
      by_cases hx : x = sep
      · obtain ⟨pre, last, h1, h2⟩ := ih []
        refine ⟨acc.reverse :: pre, last, ?_, ?_⟩
        · rw [splitOnChar, if_pos hx, h1]
          rfl
        · show splitOnChar sep (x :: (xs' ++ s)) acc = _
          rw [splitOnChar, if_pos hx, h2]
          rfl
      · obtain ⟨pre, last, h1, h2⟩ := ih (x :: acc)
        refine ⟨pre, last, ?_, ?_⟩
        · rw [splitOnChar, if_neg hx, h1]
        · show splitOnChar sep (x :: (xs' ++ s)) acc = _
          rw [splitOnChar, if_neg hx, h2]

/-- A pattern `**/*<lits>` whose final literal is a non-digit never
matches the path of a timestamped backup, whose final character is the
last digit of the timestamp. -/
theorem include_pat_rejects_backup (p : String) (ts : Nat) (lits x : List Char)
    (lc : Char) (hlit : ∀ c ∈ lits, c ≠ '*' ∧ c ≠ '?')
    (hform : lits = x ++ [lc]) (hlc : lc.isDigit = false) :
    matchSegs [['*', '*'], '*' :: lits] (splitSegs (backupPath p ts).data) =
      false := by
  by_contra hne
  have htrue : matchSegs [['*', '*'], '*' :: lits]
      (splitSegs (backupPath p ts).data) = true := by
    cases hmm : matchSegs [['*', '*'], '*' :: lits]
      (splitSegs (backupPath p ts).data)
    · exact absurd hmm hne
    · rfl
  have hpat : ('*' :: lits) ≠ ['*', '*'] := by
    intro hcontra
    have : lits = ['*'] := by injection hcontra
    have := hlit '*' (this ▸ List.mem_cons_self _ _)
    exact this.1 rfl
  obtain ⟨n, hlast, hmatch⟩ := matchSegs_globstar_last _ hpat _ htrue
  -- the matched segment ends with the literal tail of the pattern
  have hglob : globChars ('*' :: lits) n = true := by
    rw [matchSegment] at hmatch
    by_cases hdot : (n.head? = some '.' && !('*' :: lits).head? = some '.') = true
    · rw [if_pos hdot] at hmatch; exact absurd hmatch (by simp)
    · rwa [if_neg hdot] at hmatch
  have hsuffix : lits <:+ n := globChars_star_suffix lits hlit n hglob
  -- compute the last segment of the backup path
  obtain ⟨l, c, hrepr, hcdig⟩ := repr_data_last_digit ts
  have hbdata : (backupPath p ts).data =
      p.data ++ (".bak.".data ++ (Nat.repr ts).data) := by
    show (p ++ ".bak." ++ toString ts).data = _
    rw [String.data_append, String.data_append, List.append_assoc]
    rfl
  have hnoSep : ∀ ch ∈ ".bak.".data ++ (Nat.repr ts).data, ch ≠ '/' := by
    intro ch hch
    rcases List.mem_append.mp hch with h | h
    · fin_cases h <;> decide
    · intro hcontra
      have := repr_data_digits ts ch h
      rw [hcontra] at this
      exact absurd this (by decide)
  obtain ⟨pre, last0, _, hsplit⟩ :=
    splitOnChar_append_noSep '/' (".bak.".data ++ (Nat.repr ts).data) hnoSep
      p.data []
  have hlast' : (splitSegs (backupPath p ts).data).getLast? =
      some (last0 ++ (".bak.".data ++ (Nat.repr ts).data)) := by
    rw [splitSegs, hbdata, hsplit, List.getLast?_concat]
  have hn : n = last0 ++ (".bak.".data ++ (Nat.repr ts).data) := by
    rw [hlast] at hlast'
    exact Option.some.inj hlast'.symm |>.symm
  -- the last character of n is a digit …
  have hnlast : n.getLast? = some c := by
    rw [hn, hrepr, ← List.append_assoc, ← List.append_assoc, List.getLast?_concat]
  -- … but the suffix forces it to be the non-digit lc
  obtain ⟨t, ht⟩ := hsuffix
  have hnlast2 : n.getLast? = some lc := by
    rw [← ht, hform, ← List.append_assoc, List.getLast?_concat]
  rw [hnlast] at hnlast2
  have : c = lc := Option.some.inj hnlast2
  rw [this, hlc] at hcdig
  exact absurd hcdig (by simp)

/-- C10: backup files are never review candidates.  For every path `p`
and timestamp, the backup path `p.bak.<ts>` produced by `backupFile` is
rejected by `shouldIncludeFile` under the default include/exclude
patterns; moreover (the mechanism the default config intends) a typical
backup path is caught by the `**/*.bak.*` exclude pattern. -/
theorem backup_never_review_candidate (p : String) (ts : Nat) :
    shouldIncludeFile (backupPath p ts) defaultIncludePatterns
      defaultExcludePatterns = false ∧
    minimatch (backupPath "src/foo.ts" 123) "**/*.bak.*" = true := by
  constructor
  · rw [shouldIncludeFile_eq]
    have hinc : defaultIncludePatterns.any
        (fun pat => minimatch (backupPath p ts) pat) = false := by
      show (minimatch (backupPath p ts) "**/*.{ts,js,py,md}" || false) = false
      rw [Bool.or_false]
      show (braceExpand ("**/*.{ts,js,py,md}".data.length)
          "**/*.{ts,js,py,md}".data).any
          (fun pat => matchSegs (splitSegs pat)
            (splitSegs (backupPath p ts).data)) = false
      have hexp : braceExpand ("**/*.{ts,js,py,md}".data.length)
          "**/*.{ts,js,py,md}".data =
          ["**/*.ts".data, "**/*.js".data, "**/*.py".data, "**/*.md".data] := by
        decide
      rw [hexp]
      have hts : splitSegs "**/*.ts".data = [['*', '*'], '*' :: ['.', 't', 's']] := by
        decide
      have hjs : splitSegs "**/*.js".data = [['*', '*'], '*' :: ['.', 'j', 's']] := by
        decide
      have hpy : splitSegs "**/*.py".data = [['*', '*'], '*' :: ['.', 'p', 'y']] := by
        decide
      have hmd : splitSegs "**/*.md".data = [['*', '*'], '*' :: ['.', 'm', 'd']] := by
        decide
      simp only [List.any_cons, List.any_nil, hts, hjs, hpy, hmd]
      rw [include_pat_rejects_backup p ts ['.', 't', 's'] ['.', 't'] 's'
          (by decide) (by decide) (by decide),
        include_pat_rejects_backup p ts ['.', 'j', 's'] ['.', 'j'] 's'
          (by decide) (by decide) (by decide),
        include_pat_rejects_backup p ts ['.', 'p', 'y'] ['.', 'p'] 'y'
          (by decide) (by decide) (by decide),
        include_pat_rejects_backup p ts ['.', 'm', 'd'] ['.', 'm'] 'd'
          (by decide) (by decide) (by decide)]
      rfl
    rw [hinc]
    rfl
  · decide

/-! ## Review Parser (`reviewFile`, part_004 lines 457–465)

```
let suggestedChanges: string | undefined;
const issues = [];
const changeMatch = review.match(/```[\s\S]*?```/);
if (changeMatch) suggestedChanges = changeMatch[0].replace(/```/g, "").trim();

const issueMatches = review.matchAll(/Line (\d+): (\w+ severity) - ([^\n]+)/g);
for (const match of issueMatches) {
    issues.push({ line: parseInt(match[1]), severity: match[2], message: match[3] });
}
```

The lazy regex `` /```[\s\S]*?```/ `` matches from the first `` ``` `` to
the nearest following `` ``` ``.  `replace` removes every (left-to-right,
non-overlapping) `` ``` `` occurrence; `trim` strips surrounding
whitespace. -/

/-- Does the text start with a triple backtick? -/
def isFenceAt (cs : List Char) : Bool :=
  match cs with
  | a :: b :: c :: _ => a = '`' && b = '`' && c = '`'
  | _ => false

/-- After an opening fence: the (lazy, i.e. shortest) interior up to the
next closing fence, or `none` if no closing fence follows. -/
def fenceInterior : List Char → Option (List Char)
  | [] => none
  | c :: cs =>
      if isFenceAt (c :: cs) then some []
      else (fenceInterior cs).map (fun i => c :: i)

/-- `review.match(/```[\s\S]*?```/)`: the full matched span
(`match[0]`), fences included. -/
def firstFenceMatch : List Char → Option (List Char)
  | [] => none
  | c :: cs =>
      if isFenceAt (c :: cs) then
        (fenceInterior (cs.drop 2)).map
          (fun i => '`' :: '`' :: '`' :: (i ++ ['`', '`', '`']))
      else firstFenceMatch cs

/-- The interior of the first complete fenced block (what the spec calls
"the first triple-fenced code block with the fence markers stripped"). -/
def firstFenceInterior : List Char → Option (List Char)
  | [] => none
  | c :: cs =>
      if isFenceAt (c :: cs) then fenceInterior (cs.drop 2)
      else firstFenceInterior cs

/-- `.replace(/```/g, "")`: remove every triple backtick, scanning left
to right without overlap. -/
def removeTriples : List Char → List Char
  | [] => []
  | c :: cs =>
      let keep := c :: removeTriples cs
      if c = '`' then
        match cs with
        | d :: e :: rest =>
            if d = '`' && e = '`' then removeTriples rest
            else keep
        | _ => keep
      else keep

/-- The JS whitespace characters relevant to `String.prototype.trim`
(ASCII subset). -/
def isJsSpace (c : Char) : Bool :=
  c = ' ' || c = '\t' || c = '\n' || c = '\r' || c = '\x0b' || c = '\x0c'

/-- `String.prototype.trim`. -/
def trimChars (cs : List Char) : List Char :=
  ((cs.dropWhile isJsSpace).reverse.dropWhile isJsSpace).reverse

/-- `suggestedChanges`: absent if no fenced block, else the matched span
with all backtick triples removed, trimmed. -/
def suggestedChangesOf (review : String) : Option String :=
  (firstFenceMatch review.data).map
    (fun m => (trimChars (removeTriples m)).asString)

/-- `Issue` (part_004 lines 35–39). -/
structure Issue where
  line : Nat
  message : String
  severity : String
  deriving Repr, DecidableEq

/-- Match a literal string at the current position, returning the rest. -/
def matchLiteral : List Char → List Char → Option (List Char)
  | [], cs => some cs
  | _ :: _, [] => none
  | l :: ls, c :: cs => if c = l then matchLiteral ls cs else none

/-- `\w` (JS word character, ASCII). -/
def isWordChar (c : Char) : Bool := c.isAlphanum || c = '_'

/-- `parseInt` on a digit run. -/
def digitsToNat (ds : List Char) : Nat :=
  ds.foldl (fun n c => n * 10 + (c.toNat - '0'.toNat)) 0

/-- After `Line (\d+): (\w+ severity) - ` has matched (digits `ds`, word
`ws`), match the greedy `([^\n]+)` message against the remaining `r5`. -/
def issueStageMsg (ds ws r5 : List Char) : Option (Issue × List Char) :=
  let ms := r5.takeWhile (fun c => !(c = '\n'))
  if ms.isEmpty then none
  else
    some ({ line := digitsToNat ds,
            message := ms.asString,
            severity := (ws ++ " severity".data).asString },
          r5.drop ms.length)

/-- After `Line (\d+): ` has matched, match `(\w+ severity) - ` and the
message against the remaining `r3`. -/
def issueStageWord (ds r3 : List Char) : Option (Issue × List Char) :=
  let ws := r3.takeWhile isWordChar
  if ws.isEmpty then none
  else (matchLiteral " severity - ".data (r3.drop ws.length)).bind
    (issueStageMsg ds ws)

/-- After `Line ` has matched, match `(\d+): ` and the rest against the
remaining `r1`. -/
def issueStageDigits (r1 : List Char) : Option (Issue × List Char) :=
  let ds := r1.takeWhile Char.isDigit
  if ds.isEmpty then none
  else (matchLiteral ": ".data (r1.drop ds.length)).bind (issueStageWord ds)

/-- Try to match `/Line (\d+): (\w+ severity) - ([^\n]+)/` at the current
position; on success return the Issue (line parsed as an integer,
severity the raw capture `<word> severity`, message the rest of the
line) and the input remaining after the match. -/
def matchIssueAt (cs : List Char) : Option (Issue × List Char) :=
  (matchLiteral "Line ".data cs).bind issueStageDigits

/-- `review.matchAll(...)`: scan left to right; after a match, continue
at the first character past the match.  `fuel` only bounds the recursion
and is irrelevant above the input length. -/
def matchAllIssues : Nat → List Char → List Issue
  | 0, _ => []
  | _ + 1, [] => []
  | fuel + 1, c :: cs =>
      match matchIssueAt (c :: cs) with
      | some (iss, rest) => iss :: matchAllIssues fuel rest
      | none => matchAllIssues fuel cs

/-- The issue list extracted from a review text. -/
def parseIssues (review : String) : List Issue :=
  matchAllIssues review.data.length review.data

/-- The first issue-line match inside a single line of the reply. -/
def firstIssueInLine : List Char → Option Issue
  | [] => none
  | c :: cs =>
      match matchIssueAt (c :: cs) with
      | some (iss, _) => some iss
      | none => firstIssueInLine cs

/-! ### The suggested-replacement extraction (C5) -/

theorem removeTriples_cons_ne (c : Char) (cs : List Char) (hc : ¬ c = '`') :
    removeTriples (c :: cs) = c :: removeTriples cs := by
  conv_lhs => rw [removeTriples.eq_def]
  simp only [if_neg hc]

theorem removeTriples_ticks (rest : List Char) :
    removeTriples ('`' :: '`' :: '`' :: rest) = removeTriples rest := by
  conv_lhs => rw [removeTriples.eq_def]
  simp

theorem removeTriples_guarded (d e : Char) (rest : List Char)
    (hde : (d = '`' ∧ e = '`') → False) :
    removeTriples ('`' :: d :: e :: rest) = '`' :: removeTriples (d :: e :: rest) := by
  have h : (decide (d = '`') && decide (e = '`')) = false := by
    by_cases hd : d = '`'
    · by_cases he : e = '`'
      · exact absurd ⟨hd, he⟩ hde
      · simp [hd, he]
    · simp [hd]
  conv_lhs => rw [removeTriples.eq_def]
  simp [h]

theorem isFenceAt_shape (cs : List Char) (h : isFenceAt cs = true) :
    ∃ rest, cs = '`' :: '`' :: '`' :: rest := by
  match cs with
  | [] => simp [isFenceAt] at h
  | [a] => simp [isFenceAt] at h
  | [a, b] => simp [isFenceAt] at h
  | a :: b :: c :: rest =>
      simp only [isFenceAt, Bool.and_eq_true, decide_eq_true_eq] at h
      exact ⟨rest, by rw [h.1.1, h.1.2, h.2]⟩

theorem fenceInterior_prefix : ∀ cs I, fenceInterior cs = some I → I <+: cs := by
  intro cs
  induction cs with
  | nil => intro I h; simp [fenceInterior] at h
  | cons c cs ih =>
      intro I h
      rw [fenceInterior] at h
      by_cases hf : isFenceAt (c :: cs) = true
      · rw [if_pos hf] at h
        rw [← Option.some.inj h]
        exact List.nil_prefix
      · rw [if_neg hf] at h
        cases hI : fenceInterior cs with
        | none => rw [hI] at h; simp at h
        | some I' =>
            rw [hI] at h
            simp only [Option.map_some'] at h
            rw [← Option.some.inj h]
            exact List.cons_prefix_cons.mpr ⟨rfl, ih I' hI⟩

theorem fenceInterior_nil_fence (cs : List Char)
    (h : fenceInterior cs = some []) : isFenceAt cs = true := by
  cases cs with
  | nil => simp [fenceInterior] at h
  | cons c cs' =>
      rw [fenceInterior] at h
      by_cases hf : isFenceAt (c :: cs') = true
      · exact hf
      · rw [if_neg hf] at h
        cases hI : fenceInterior cs' with
        | none => rw [hI] at h; simp at h
        | some I' => rw [hI] at h; simp at h

theorem removeTriples_interior : ∀ (rest I : List Char),
    fenceInterior rest = some I →
    removeTriples (I ++ ['`', '`', '`']) = I := by
  intro rest
  induction rest with
  | nil => intro I h; simp [fenceInterior] at h
  | cons c cs ih =>
      intro I h
      rw [fenceInterior] at h
      by_cases hf : isFenceAt (c :: cs) = true
      · rw [if_pos hf] at h
        rw [← Option.some.inj h]
        decide
      · rw [if_neg hf] at h
        cases hI : fenceInterior cs with
        | none => rw [hI] at h; simp at h
        | some I' =>
            rw [hI] at h
            simp only [Option.map_some'] at h
            rw [← Option.some.inj h]
            show removeTriples (c :: (I' ++ ['`', '`', '`'])) = c :: I'
            by_cases hc : c = '`'
            · subst hc
              cases I' with
              | nil =>
                  -- the interior cannot be empty here: cs would start with a fence
                  exfalso
                  have hfcs : isFenceAt cs = true := fenceInterior_nil_fence cs hI
                  obtain ⟨r, hr⟩ := isFenceAt_shape cs hfcs
                  rw [hr] at hf
                  exact hf (by simp [isFenceAt])
              | cons d I'' =>
                  cases I'' with
                  | nil =>
                      -- I' = [d]: cs = d :: cs₂ with cs₂ a fence, so d ≠ '`'
                      have hcs : ∃ cs₂, cs = d :: cs₂ ∧ fenceInterior cs₂ = some [] := by
                        cases cs with
                        | nil => simp [fenceInterior] at hI
                        | cons x xs =>
                            rw [fenceInterior] at hI
                            by_cases hfx : isFenceAt (x :: xs) = true
                            · rw [if_pos hfx] at hI
                              simp at hI
                            · rw [if_neg hfx] at hI
                              cases hI2 : fenceInterior xs with
                              | none => rw [hI2] at hI; simp at hI
                              | some J =>
                                  rw [hI2] at hI
                                  simp only [Option.map_some'] at hI
                                  have := Option.some.inj hI
                                  have hx : x = d := by
                                    injection this
                                  have hJ : J = [] := by
                                    injection this with _ h2
                                  exact ⟨xs, by rw [hx], by rw [← hJ]; exact hI2⟩
                      obtain ⟨cs₂, hcs₂, hI2⟩ := hcs
                      have hfcs₂ : isFenceAt cs₂ = true := fenceInterior_nil_fence cs₂ hI2
                      obtain ⟨r, hr⟩ := isFenceAt_shape cs₂ hfcs₂
                      have hd : ¬ d = '`' := by
                        intro hd
                        apply hf
                        rw [hcs₂, hr, hd]
                        simp [isFenceAt]
                      show removeTriples ('`' :: d :: '`' :: ['`', '`']) = ['`', d]
                      rw [removeTriples_guarded d '`' ['`', '`']
                        (fun hde => hd hde.1)]
                      rw [removeTriples_cons_ne d _ hd]
                      rfl
                  | cons e I₃ =>
                      -- I' = d :: e :: …, a prefix of cs, so ¬(d = ` ∧ e = `)
                      have hpre := fenceInterior_prefix cs _ hI
                      obtain ⟨t, ht⟩ := hpre
                      have hde : (d = '`' ∧ e = '`') → False := by
                        intro hde
                        apply hf
                        rw [← ht, hde.1, hde.2]
                        simp [isFenceAt]
                      show removeTriples ('`' :: d :: e :: (I₃ ++ ['`', '`', '`'])) =
                        '`' :: d :: e :: I₃
                      rw [removeTriples_guarded d e _ hde]
                      have := ih (d :: e :: I₃) hI
                      rw [show (d :: e :: I₃) ++ ['`', '`', '`'] =
                        d :: e :: (I₃ ++ ['`', '`', '`']) from rfl] at this
                      rw [this]
            · rw [removeTriples_cons_ne c _ hc, ih I' hI]

theorem firstFenceMatch_eq_interior : ∀ cs,
    firstFenceMatch cs = (firstFenceInterior cs).map
      (fun i => '`' :: '`' :: '`' :: (i ++ ['`', '`', '`'])) := by
  intro cs
  induction cs with
  | nil => rfl
  | cons c cs ih =>
      rw [firstFenceMatch, firstFenceInterior]
      by_cases hf : isFenceAt (c :: cs) = true
      · rw [if_pos hf, if_pos hf]
      · rw [if_neg hf, if_neg hf, ih]

theorem firstFenceInterior_source : ∀ cs I,
    firstFenceInterior cs = some I → ∃ rest, fenceInterior rest = some I := by
  intro cs
  induction cs with
  | nil => intro I h; simp [firstFenceInterior] at h
  | cons c cs ih =>
      intro I h
      rw [firstFenceInterior] at h
      by_cases hf : isFenceAt (c :: cs) = true
      · rw [if_pos hf] at h
        exact ⟨cs.drop 2, h⟩
      · rw [if_neg hf] at h
        exact ih I h

theorem isFenceAt_infix_ticks (cs : List Char) (h : isFenceAt cs = true) :
    ['`', '`', '`'] <:+: cs := by
  obtain ⟨rest, hr⟩ := isFenceAt_shape cs h
  exact ⟨[], rest, by rw [hr]; rfl⟩

theorem firstFenceMatch_none_of_no_fence : ∀ cs,
    ¬ (['`', '`', '`'] <:+: cs) → firstFenceMatch cs = none := by
  intro cs
  induction cs with
  | nil => intro _; rfl
  | cons c cs ih =>
      intro h
      rw [firstFenceMatch]
      by_cases hf : isFenceAt (c :: cs) = true
      · exact absurd (isFenceAt_infix_ticks _ hf) h
      · rw [if_neg hf]
        exact ih (fun hinf => h (List.infix_cons hinf))

/-- C5: suggested replacement.  For every reply, `suggestedChanges` is
the interior of the first complete triple-fenced block, whitespace
trimmed (the fence markers being stripped by the global
`` .replace(/```/g, "") ``); the synthetic reply `` "```\nfoo\n```" ``
yields `"foo"`; and a reply containing no `` ``` `` at all yields the
absent value `none`, never an empty string. -/
theorem review_parser_suggested_spec :
    (∀ review : String, suggestedChangesOf review =
      (firstFenceInterior review.data).map (fun i => (trimChars i).asString)) ∧
    suggestedChangesOf "```\nfoo\n```" = some "foo" ∧
    (∀ review : String, ¬ (['`', '`', '`'] <:+: review.data) →
      suggestedChangesOf review = none) := by
  refine ⟨?_, by decide, ?_⟩
  · intro review
    rw [suggestedChangesOf, firstFenceMatch_eq_interior]
    cases h : firstFenceInterior review.data with
    | none => rfl
    | some I =>
        simp only [Option.map_some']
        congr 1
        obtain ⟨rest, hrest⟩ := firstFenceInterior_source _ I h
        rw [removeTriples_ticks, removeTriples_interior rest I hrest]
  · intro review h
    rw [suggestedChangesOf, firstFenceMatch_none_of_no_fence review.data h]
    rfl

/-- Witness for `review_parser_suggested_spec`: the fence-free reply
`"hello"` yields no suggestion. -/
theorem review_parser_suggested_spec_witness :
    suggestedChangesOf "hello" = none :=
  review_parser_suggested_spec.2.2 "hello" (by decide)

/-! ### The issue extraction (C6, C9)

Composition lemmas: the issue regex never matches across a newline, so
scanning a text is scanning its lines one by one. -/

theorem matchLiteral_nil (s : List Char) : matchLiteral [] s = some s := rfl

theorem matchLiteral_cons_nil (l : Char) (ls : List Char) :
    matchLiteral (l :: ls) [] = none := rfl

theorem matchLiteral_cons_cons (l : Char) (ls : List Char) (c : Char)
    (cs : List Char) :
    matchLiteral (l :: ls) (c :: cs) =
      if c = l then matchLiteral ls cs else none := rfl

theorem matchLiteral_append (lit : List Char) :
    ∀ s t r, matchLiteral lit s = some r →
      matchLiteral lit (s ++ t) = some (r ++ t) := by
  induction lit with
  | nil =>
      intro s t r h
      rw [matchLiteral_nil] at h
      rw [matchLiteral_nil, Option.some.inj h]
  | cons l ls ih =>
      intro s t r h
      cases s with
      | nil => rw [matchLiteral_cons_nil] at h; exact absurd h (by simp)
      | cons c cs =>
          rw [matchLiteral_cons_cons] at h
          rw [List.cons_append, matchLiteral_cons_cons]
          by_cases hc : c = l
          · rw [if_pos hc] at h ⊢
            exact ih cs t r h
          · rw [if_neg hc] at h
            exact absurd h (by simp)

theorem matchLiteral_append_none (lit : List Char) (hlit : '\n' ∉ lit) :
    ∀ s t, matchLiteral lit s = none → (t = [] ∨ t.head? = some '\n') →
      matchLiteral lit (s ++ t) = none := by
  induction lit with
  | nil =>
      intro s t h _
      rw [matchLiteral_nil] at h
      exact absurd h (by simp)
  | cons l ls ih =>
      intro s t h ht
      cases s with
      | nil =>
          rcases ht with ht | ht
          · rw [ht]
            rfl
          · cases t with
            | nil => rfl
            | cons c t' =>
                have hc : c = '\n' := by simpa using ht
                rw [List.nil_append, matchLiteral_cons_cons, if_neg]
                rw [hc]
                intro hcontra
                exact hlit (hcontra ▸ List.mem_cons_self _ _)
      | cons c cs =>
          rw [matchLiteral_cons_cons] at h
          rw [List.cons_append, matchLiteral_cons_cons]
          by_cases hc : c = l
          · rw [if_pos hc] at h ⊢
            exact ih (fun hm => hlit (List.mem_cons_of_mem _ hm)) cs t h ht
          · rw [if_neg hc]

theorem takeWhile_append_boundary (p : Char → Bool) (hp : p '\n' = false) :
    ∀ (s t : List Char), (t = [] ∨ t.head? = some '\n') →
      (s ++ t).takeWhile p = s.takeWhile p := by
  intro s t ht
  induction s with
  | nil =>
      rcases ht with ht | ht
      · rw [ht]
        rfl
      · cases t with
        | nil => rfl
        | cons c t' =>
            have hc : c = '\n' := by simpa using ht
            rw [List.nil_append, List.takeWhile_cons, hc, hp]
            rfl
  | cons c s' ih =>
      rw [List.cons_append, List.takeWhile_cons, List.takeWhile_cons]
      cases hpc : p c
      · rfl
      · rw [ih]

theorem matchLiteral_suffix (lit : List Char) :
    ∀ s r, matchLiteral lit s = some r → r <:+ s := by
  induction lit with
  | nil =>
      intro s r h
      rw [matchLiteral_nil] at h
      rw [Option.some.inj h]
  | cons l ls ih =>
      intro s r h
      cases s with
      | nil => rw [matchLiteral_cons_nil] at h; exact absurd h (by simp)
      | cons c cs =>
          rw [matchLiteral_cons_cons] at h
          by_cases hc : c = l
          · rw [if_pos hc] at h
            exact (ih cs r h).trans (List.suffix_cons c cs)
          · rw [if_neg hc] at h
            exact absurd h (by simp)

theorem matchLiteral_length (lit : List Char) :
    ∀ s r, matchLiteral lit s = some r → r.length + lit.length = s.length := by
  induction lit with
  | nil =>
      intro s r h
      rw [matchLiteral_nil] at h
      rw [Option.some.inj h]
      simp
  | cons l ls ih =>
      intro s r h
      cases s with
      | nil => rw [matchLiteral_cons_nil] at h; exact absurd h (by simp)
      | cons c cs =>
          rw [matchLiteral_cons_cons] at h
          by_cases hc : c = l
          · rw [if_pos hc] at h
            have := ih cs r h
            simp only [List.length_cons]
            omega
          · rw [if_neg hc] at h
            exact absurd h (by simp)

theorem option_bind_none (f : α → Option β) :
    (none : Option α).bind f = none := rfl

theorem option_bind_some (a : α) (f : α → Option β) :
    (some a).bind f = f a := rfl

/-- Composition at a line boundary, message stage. -/
theorem issueStageMsg_append (ds ws r5 t : List Char)
    (ht : t = [] ∨ t.head? = some '\n') :
    issueStageMsg ds ws (r5 ++ t) =
      match issueStageMsg ds ws r5 with
      | none => none
      | some (iss, r) => some (iss, r ++ t) := by
  rw [issueStageMsg, issueStageMsg]
  simp only
  rw [takeWhile_append_boundary (fun c => !(c = '\n')) (by decide) r5 t ht]
  cases hms : (r5.takeWhile (fun c => !(c = '\n'))).isEmpty
  · simp only [hms, Bool.false_eq_true, if_false]
    have hlen : (r5.takeWhile (fun c => !(c = '\n'))).length ≤ r5.length :=
      (List.takeWhile_sublist _).length_le
    rw [List.drop_append_of_le_length hlen]
  · simp only [hms, if_true]

/-- Composition at a line boundary, word stage. -/
theorem issueStageWord_append (ds r3 t : List Char)
    (ht : t = [] ∨ t.head? = some '\n') :
    issueStageWord ds (r3 ++ t) =
      match issueStageWord ds r3 with
      | none => none
      | some (iss, r) => some (iss, r ++ t) := by
  rw [issueStageWord, issueStageWord]
  simp only
  rw [takeWhile_append_boundary isWordChar (by decide) r3 t ht]
  cases hws : (r3.takeWhile isWordChar).isEmpty
  · simp only [hws, Bool.false_eq_true, if_false]
    have hlen : (r3.takeWhile isWordChar).length ≤ r3.length :=
      (List.takeWhile_sublist _).length_le
    rw [List.drop_append_of_le_length hlen]
    cases h4 : matchLiteral " severity - ".data
        (r3.drop (r3.takeWhile isWordChar).length) with
    | none =>
        rw [matchLiteral_append_none _ (by decide) _ t h4 ht]
        rfl
    | some r5 =>
        rw [matchLiteral_append _ _ t r5 h4]
        rw [option_bind_some, option_bind_some]
        exact issueStageMsg_append ds _ r5 t ht
  · simp only [hws, if_true]

/-- Composition at a line boundary, digits stage. -/
theorem issueStageDigits_append (r1 t : List Char)
    (ht : t = [] ∨ t.head? = some '\n') :
    issueStageDigits (r1 ++ t) =
      match issueStageDigits r1 with
      | none => none
      | some (iss, r) => some (iss, r ++ t) := by
  rw [issueStageDigits, issueStageDigits]
  simp only
  rw [takeWhile_append_boundary Char.isDigit (by decide) r1 t ht]
  cases hds : (r1.takeWhile Char.isDigit).isEmpty
  · simp only [hds, Bool.false_eq_true, if_false]
    have hlen : (r1.takeWhile Char.isDigit).length ≤ r1.length :=
      (List.takeWhile_sublist _).length_le
    rw [List.drop_append_of_le_length hlen]
    cases h2 : matchLiteral ": ".data
        (r1.drop (r1.takeWhile Char.isDigit).length) with
    | none =>
        rw [matchLiteral_append_none _ (by decide) _ t h2 ht]
        rfl
    | some r3 =>
        rw [matchLiteral_append _ _ t r3 h2]
        rw [option_bind_some, option_bind_some]
        exact issueStageWord_append _ r3 t ht
  · simp only [hds, if_true]

/-- The composition law for one match attempt at a text/rest boundary:
with `t` empty or starting at a newline, matching at a position of
`s ++ t` is matching at the same position of `s`, with `t` glued back
onto the leftover. -/
theorem matchIssueAt_append (s t : List Char)
    (ht : t = [] ∨ t.head? = some '\n') :
    matchIssueAt (s ++ t) =
      match matchIssueAt s with
      | none => none
      | some (iss, r) => some (iss, r ++ t) := by
  rw [matchIssueAt, matchIssueAt]
  cases h1 : matchLiteral "Line ".data s with
  | none =>
      rw [matchLiteral_append_none _ (by decide) s t h1 ht]
      rfl
  | some r1 =>
      rw [matchLiteral_append _ s t r1 h1]
      rw [option_bind_some, option_bind_some]
      exact issueStageDigits_append r1 t ht

theorem issueStageMsg_rest (ds ws r5 : List Char)
    (hnf : ∀ c ∈ r5, ¬ c = '\n') :
    ∀ iss r, issueStageMsg ds ws r5 = some (iss, r) → r = [] := by
  intro iss r h
  rw [issueStageMsg] at h
  simp only at h
  have hall : r5.takeWhile (fun c => !(c = '\n')) = r5 := by
    rw [List.takeWhile_eq_self_iff]
    intro c hc
    simp [hnf c hc]
  cases hms : (r5.takeWhile (fun c => !(c = '\n'))).isEmpty
  · rw [hms] at h
    simp only [Bool.false_eq_true, if_false] at h
    have hp := Option.some.inj h
    simp only [Prod.mk.injEq] at hp
    rw [← hp.2, hall, List.drop_length]
  · rw [hms] at h
    simp at h

theorem issueStageWord_rest (ds r3 : List Char)
    (hnf : ∀ c ∈ r3, ¬ c = '\n') :
    ∀ iss r, issueStageWord ds r3 = some (iss, r) → r = [] := by
  intro iss r h
  rw [issueStageWord] at h
  simp only at h
  cases hws : (r3.takeWhile isWordChar).isEmpty
  · rw [hws] at h
    simp only [Bool.false_eq_true, if_false] at h
    cases h4 : matchLiteral " severity - ".data
        (r3.drop (r3.takeWhile isWordChar).length) with
    | none => rw [h4] at h; simp [option_bind_none] at h
    | some r5 =>
        rw [h4, option_bind_some] at h
        have hr5nf : ∀ c ∈ r5, ¬ c = '\n' := by
          intro c hc
          have hsuf : r5 <:+ r3.drop (r3.takeWhile isWordChar).length :=
            matchLiteral_suffix _ _ r5 h4
          exact hnf c ((hsuf.trans (List.drop_suffix _ _)).subset hc)
        exact issueStageMsg_rest ds _ r5 hr5nf iss r h
  · rw [hws] at h
    simp at h

theorem issueStageDigits_rest (r1 : List Char)
    (hnf : ∀ c ∈ r1, ¬ c = '\n') :
    ∀ iss r, issueStageDigits r1 = some (iss, r) → r = [] := by
  intro iss r h
  rw [issueStageDigits] at h
  simp only at h
  cases hds : (r1.takeWhile Char.isDigit).isEmpty
  · rw [hds] at h
    simp only [Bool.false_eq_true, if_false] at h
    cases h2 : matchLiteral ": ".data
        (r1.drop (r1.takeWhile Char.isDigit).length) with
    | none => rw [h2] at h; simp [option_bind_none] at h
    | some r3 =>
        rw [h2, option_bind_some] at h
        have hr3nf : ∀ c ∈ r3, ¬ c = '\n' := by
          intro c hc
          have hsuf : r3 <:+ r1.drop (r1.takeWhile Char.isDigit).length :=
            matchLiteral_suffix _ _ r3 h2
          exact hnf c ((hsuf.trans (List.drop_suffix _ _)).subset hc)
        exact issueStageWord_rest _ r3 hr3nf iss r h
  · rw [hds] at h
    simp at h

/-- On a newline-free text, a successful match leaves nothing behind:
the message swallows the rest of the line. -/
theorem matchIssueAt_rest_nil (s : List Char) (hnf : ∀ c ∈ s, ¬ c = '\n') :
    ∀ iss r, matchIssueAt s = some (iss, r) → r = [] := by
  intro iss r h
  rw [matchIssueAt] at h
  cases h1 : matchLiteral "Line ".data s with
  | none => rw [h1] at h; simp [option_bind_none] at h
  | some r1 =>
      rw [h1, option_bind_some] at h
      have hr1nf : ∀ c ∈ r1, ¬ c = '\n' := by
        intro c hc
        exact hnf c ((matchLiteral_suffix _ s r1 h1).subset hc)
      exact issueStageDigits_rest r1 hr1nf iss r h

theorem issueStageMsg_shrinks (ds ws r5 : List Char) :
    ∀ iss r, issueStageMsg ds ws r5 = some (iss, r) → r.length ≤ r5.length := by
  intro iss r h
  rw [issueStageMsg] at h
  simp only at h
  cases hms : (r5.takeWhile (fun c => !(c = '\n'))).isEmpty
  · rw [hms] at h
    simp only [Bool.false_eq_true, if_false] at h
    have hp := Option.some.inj h
    simp only [Prod.mk.injEq] at hp
    rw [← hp.2, List.length_drop]
    omega
  · rw [hms] at h
    simp at h

theorem issueStageWord_shrinks (ds r3 : List Char) :
    ∀ iss r, issueStageWord ds r3 = some (iss, r) → r.length ≤ r3.length := by
  intro iss r h
  rw [issueStageWord] at h
  simp only at h
  cases hws : (r3.takeWhile isWordChar).isEmpty
  · rw [hws] at h
    simp only [Bool.false_eq_true, if_false] at h
    cases h4 : matchLiteral " severity - ".data
        (r3.drop (r3.takeWhile isWordChar).length) with
    | none => rw [h4] at h; simp [option_bind_none] at h
    | some r5 =>
        rw [h4, option_bind_some] at h
        have h5 := issueStageMsg_shrinks ds _ r5 iss r h
        have hl5 : r5.length + 12 =
            (r3.drop (r3.takeWhile isWordChar).length).length :=
          matchLiteral_length _ _ r5 h4
        have : (r3.drop (r3.takeWhile isWordChar).length).length ≤ r3.length := by
          rw [List.length_drop]
          omega
        omega
  · rw [hws] at h
    simp at h

theorem issueStageDigits_shrinks (r1 : List Char) :
    ∀ iss r, issueStageDigits r1 = some (iss, r) → r.length ≤ r1.length := by
  intro iss r h
  rw [issueStageDigits] at h
  simp only at h
  cases hds : (r1.takeWhile Char.isDigit).isEmpty
  · rw [hds] at h
    simp only [Bool.false_eq_true, if_false] at h
    cases h2 : matchLiteral ": ".data
        (r1.drop (r1.takeWhile Char.isDigit).length) with
    | none => rw [h2] at h; simp [option_bind_none] at h
    | some r3 =>
        rw [h2, option_bind_some] at h
        have h3 := issueStageWord_shrinks _ r3 iss r h
        have hl3 : r3.length + 2 =
            (r1.drop (r1.takeWhile Char.isDigit).length).length :=
          matchLiteral_length _ _ r3 h2
        have : (r1.drop (r1.takeWhile Char.isDigit).length).length ≤ r1.length := by
          rw [List.length_drop]
          omega
        omega
  · rw [hds] at h
    simp at h

/-- A successful match strictly shrinks the input. -/
theorem matchIssueAt_shrinks (s : List Char) :
    ∀ iss r, matchIssueAt s = some (iss, r) → r.length < s.length := by
  intro iss r h
  rw [matchIssueAt] at h
  cases h1 : matchLiteral "Line ".data s with
  | none => rw [h1] at h; simp [option_bind_none] at h
  | some r1 =>
      rw [h1, option_bind_some] at h
      have hr1 : r1.length + 5 = s.length := matchLiteral_length _ s r1 h1
      have := issueStageDigits_shrinks r1 iss r h
      omega

theorem matchAllIssues_fuel : ∀ (n f₁ f₂ : Nat) (cs : List Char),
    cs.length ≤ n → cs.length ≤ f₁ → cs.length ≤ f₂ →
    matchAllIssues f₁ cs = matchAllIssues f₂ cs := by
  intro n
  induction n with
  | zero =>
      intro f₁ f₂ cs h _ _
      have : cs = [] := List.length_eq_zero.mp (by omega)
      subst this
      cases f₁ <;> cases f₂ <;> rfl
  | succ n ih =>
      intro f₁ f₂ cs h h1 h2
      cases cs with
      | nil => cases f₁ <;> cases f₂ <;> rfl
      | cons c cs' =>
          have hl : cs'.length + 1 = (c :: cs').length := rfl
          cases f₁ with
          | zero => simp at h1
          | succ f₁' =>
              cases f₂ with
              | zero => simp at h2
              | succ f₂' =>
                  rw [matchAllIssues, matchAllIssues]
                  cases hm : matchIssueAt (c :: cs') with
                  | none =>
                      simp only [hm]
                      exact ih f₁' f₂' cs' (by simp at h; omega)
                        (by simp at h1; omega) (by simp at h2; omega)
                  | some p =>
                      obtain ⟨iss, rest⟩ := p
                      simp only [hm]
                      have hs := matchIssueAt_shrinks (c :: cs') iss rest hm
                      rw [ih f₁' f₂' rest (by simp at h ⊢; omega)
                        (by simp at h1 ⊢; omega) (by simp at h2 ⊢; omega)]

/-- Scanning `L ++ t` where `L` is one newline-free line and `t` is the
rest of the text (starting at a newline): the first in-line match, if
any, then the scan of `t`. -/
theorem matchAllIssues_line : ∀ (L t : List Char) (fuel : Nat),
    (∀ c ∈ L, ¬ c = '\n') → (t = [] ∨ t.head? = some '\n') →
    L.length + t.length ≤ fuel →
    matchAllIssues fuel (L ++ t) =
      (firstIssueInLine L).toList ++ matchAllIssues t.length t := by
  intro L
  induction L with
  | nil =>
      intro t fuel _ _ hfuel
      rw [List.nil_append]
      rw [matchAllIssues_fuel fuel fuel t.length t (by omega) (by simpa using hfuel)
        (le_refl _)]
      rfl
  | cons c L' ih =>
      intro t fuel hnf ht hfuel
      cases fuel with
      | zero => simp at hfuel
      | succ f =>
          show matchAllIssues (f + 1) (c :: (L' ++ t)) = _
          rw [matchAllIssues, ← List.cons_append]
          rw [matchIssueAt_append (c :: L') t ht]
          cases hm : matchIssueAt (c :: L') with
          | some p =>
              obtain ⟨iss, r⟩ := p
              simp only [hm]
              have hr : r = [] := matchIssueAt_rest_nil (c :: L') hnf iss r hm
              subst hr
              rw [List.nil_append]
              rw [matchAllIssues_fuel f f t.length t
                (by simp only [List.length_cons] at hfuel; omega)
                (by simp only [List.length_cons] at hfuel; omega) (le_refl _)]
              show iss :: matchAllIssues t.length t =
                (firstIssueInLine (c :: L')).toList ++ matchAllIssues t.length t
              rw [firstIssueInLine, hm]
              rfl
          | none =>
              simp only [hm]
              rw [ih t f (fun x hx => hnf x (List.mem_cons_of_mem _ hx)) ht
                (by simp only [List.length_cons] at hfuel; omega)]
              rw [firstIssueInLine, hm]

/-- Join lines with newlines (the shape of a multi-line reply). -/
def joinLines : List (List Char) → List Char
  | [] => []
  | [l] => l
  | l :: ls => l ++ '\n' :: joinLines ls

theorem parse_per_line : ∀ (ls : List (List Char)),
    (∀ L ∈ ls, ∀ c ∈ L, ¬ c = '\n') →
    matchAllIssues (joinLines ls).length (joinLines ls) =
      ls.filterMap firstIssueInLine := by
  intro ls
  induction ls with
  | nil => intro _; rfl
  | cons L ls' ih =>
      intro hnf
      cases ls' with
      | nil =>
          show matchAllIssues L.length L = _
          have h := matchAllIssues_line L [] L.length
            (hnf L (List.mem_cons_self _ _)) (Or.inl rfl) (by simp)
          rw [List.append_nil] at h
          rw [h]
          rw [List.filterMap_cons]
          cases firstIssueInLine L <;> rfl
      | cons M ls'' =>
          show matchAllIssues (L ++ '\n' :: joinLines (M :: ls'')).length
            (L ++ '\n' :: joinLines (M :: ls'')) = _
          rw [matchAllIssues_line L ('\n' :: joinLines (M :: ls'')) _
            (hnf L (List.mem_cons_self _ _)) (Or.inr rfl) (by simp)]
          have hstep : matchAllIssues ('\n' :: joinLines (M :: ls'')).length
              ('\n' :: joinLines (M :: ls'')) =
              matchAllIssues (joinLines (M :: ls'')).length
                (joinLines (M :: ls'')) := by
            show matchAllIssues ((joinLines (M :: ls'')).length + 1)
              ('\n' :: joinLines (M :: ls'')) = _
            rw [matchAllIssues]
            have hnl : matchIssueAt ('\n' :: joinLines (M :: ls'')) = none := by
              rw [matchIssueAt]
              have : matchLiteral "Line ".data ('\n' :: joinLines (M :: ls'')) =
                  none := by
                show matchLiteral ('L' :: "ine ".data) ('\n' :: _) = none
                rw [matchLiteral_cons_cons, if_neg (by decide)]
              rw [this]
              rfl
            rw [hnl]
          rw [hstep, ih (fun X hX => hnf X (List.mem_cons_of_mem _ hX))]
          rw [List.filterMap_cons firstIssueInLine L (M :: ls'')]
          cases firstIssueInLine L <;> rfl

/-- C6: issue extraction.  The synthetic line yields exactly the
expected Issue with the line number parsed as an integer; extraction
over a multi-line reply is exactly per-line extraction — every line
containing a match contributes exactly one Issue and every other line
contributes zero; a text in which the pattern matches at no position
yields the empty issue list (the extraction is total — it never
throws). -/
theorem review_parser_issues_spec :
    parseIssues "Line 3: High severity - leak" =
      [{ line := 3, message := "leak", severity := "High severity" }] ∧
    (∀ ls : List (List Char), (∀ L ∈ ls, ∀ c ∈ L, ¬ c = '\n') →
      parseIssues (joinLines ls).asString = ls.filterMap firstIssueInLine) ∧
    (∀ review : String, (∀ s, s <:+ review.data → matchIssueAt s = none) →
      parseIssues review = []) := by
  refine ⟨by decide, ?_, ?_⟩
  · intro ls hnf
    show matchAllIssues (joinLines ls).length (joinLines ls) = _
    exact parse_per_line ls hnf
  · intro review hnone
    show matchAllIssues review.data.length review.data = []
    have : ∀ (fuel : Nat) (cs : List Char), cs <:+ review.data →
        matchAllIssues fuel cs = [] := by
      intro fuel
      induction fuel with
      | zero => intro cs _; rfl
      | succ f ih =>
          intro cs hcs
          cases cs with
          | nil => rfl
          | cons c cs' =>
              rw [matchAllIssues, hnone _ hcs]
              exact ih cs' ((List.suffix_cons c cs').trans hcs)
    exact this _ _ (List.suffix_refl _)

/-- Witness for `review_parser_issues_spec` on a three-line reply (one
matching line between two non-matching ones). -/
theorem review_parser_issues_spec_witness :
    parseIssues (joinLines ["junk".data,
      "Line 3: High severity - leak".data, "also junk".data]).asString =
      [{ line := 3, message := "leak", severity := "High severity" }] := by
  have h := review_parser_issues_spec.2.1
    ["junk".data, "Line 3: High severity - leak".data, "also junk".data]
    (by decide)
  rw [h]
  decide

/-! ### The severity tag is stored raw, not normalized (C9) -/

theorem issueStageMsg_severity (ds ws r5 : List Char) (iss : Issue)
    (r : List Char) (h : issueStageMsg ds ws r5 = some (iss, r)) :
    iss.severity = (ws ++ " severity".data).asString := by
  rw [issueStageMsg] at h
  simp only at h
  cases hms : (r5.takeWhile (fun c => !(c = '\n'))).isEmpty
  · rw [hms] at h
    simp only [Bool.false_eq_true, if_false] at h
    have hp := Option.some.inj h
    simp only [Prod.mk.injEq] at hp
    rw [← hp.1]
  · rw [hms] at h
    simp at h

theorem issueStageWord_severity (ds r3 : List Char) (iss : Issue)
    (r : List Char) (h : issueStageWord ds r3 = some (iss, r)) :
    ∃ w, iss.severity = (w ++ " severity".data).asString := by
  rw [issueStageWord] at h
  simp only at h
  cases hws : (r3.takeWhile isWordChar).isEmpty
  · rw [hws] at h
    simp only [Bool.false_eq_true, if_false] at h
    cases h4 : matchLiteral " severity - ".data
        (r3.drop (r3.takeWhile isWordChar).length) with
    | none => rw [h4] at h; simp [option_bind_none] at h
    | some r5 =>
        rw [h4, option_bind_some] at h
        exact ⟨_, issueStageMsg_severity ds _ r5 iss r h⟩
  · rw [hws] at h
    simp at h

theorem issueStageDigits_severity (r1 : List Char) (iss : Issue)
    (r : List Char) (h : issueStageDigits r1 = some (iss, r)) :
    ∃ w, iss.severity = (w ++ " severity".data).asString := by
  rw [issueStageDigits] at h
  simp only at h
  cases hds : (r1.takeWhile Char.isDigit).isEmpty
  · rw [hds] at h
    simp only [Bool.false_eq_true, if_false] at h
    cases h2 : matchLiteral ": ".data
        (r1.drop (r1.takeWhile Char.isDigit).length) with
    | none => rw [h2] at h; simp [option_bind_none] at h
    | some r3 =>
        rw [h2, option_bind_some] at h
        exact issueStageWord_severity _ r3 iss r h
  · rw [hds] at h
    simp at h

theorem matchIssueAt_severity (cs : List Char) (iss : Issue) (r : List Char)
    (h : matchIssueAt cs = some (iss, r)) :
    ∃ w, iss.severity = (w ++ " severity".data).asString := by
  rw [matchIssueAt] at h
  cases h1 : matchLiteral "Line ".data cs with
  | none => rw [h1] at h; simp [option_bind_none] at h
  | some r1 =>
      rw [h1, option_bind_some] at h
      exact issueStageDigits_severity r1 iss r h

theorem matchAllIssues_severity : ∀ (fuel : Nat) (cs : List Char) (iss : Issue),
    iss ∈ matchAllIssues fuel cs →
    ∃ w, iss.severity = (w ++ " severity".data).asString := by
  intro fuel
  induction fuel with
  | zero => intro cs iss h; simp [matchAllIssues] at h
  | succ f ih =>
      intro cs iss h
      cases cs with
      | nil => simp [matchAllIssues] at h
      | cons c cs' =>
          rw [matchAllIssues] at h
          cases hm : matchIssueAt (c :: cs') with
          | none =>
              rw [hm] at h
              exact ih cs' iss h
          | some p =>
              obtain ⟨iss0, rest⟩ := p
              rw [hm] at h
              simp only [List.mem_cons] at h
              rcases h with h | h
              · exact h ▸ matchIssueAt_severity (c :: cs') iss0 rest hm
              · exact ih rest iss h

/-- C9 is false as stated; the severity field stores the raw regex
capture `(\w+ severity)` — always of the shape `<word> severity` — not a
value normalized to High/Medium/Low/Info.  (Normalization to editor
severities happens only downstream, via `toLowerCase().includes(...)`.) -/
theorem issue_severity_raw_capture (review : String) (iss : Issue)
    (h : iss ∈ parseIssues review) :
    ∃ w, iss.severity = (w ++ " severity".data).asString :=
  matchAllIssues_severity review.data.length review.data iss h

/-- Witness for `issue_severity_raw_capture` on the synthetic reply. -/
theorem issue_severity_raw_capture_witness :
    ∃ w, (Issue.mk 3 "leak" "High severity").severity =
      (w ++ " severity".data).asString :=
  issue_severity_raw_capture "Line 3: High severity - leak"
    (Issue.mk 3 "leak" "High severity") (by decide)

/-- Counterexample to C9 as stated: the issue parsed from
`"Line 3: High severity - leak"` stores the severity `"High severity"`,
which is none of the four normalized values `High`/`Medium`/`Low`/`Info`. -/
theorem issue_severity_not_normalized :
    parseIssues "Line 3: High severity - leak" =
      [{ line := 3, message := "leak", severity := "High severity" }] ∧
    ("High severity" ≠ "High" ∧ "High severity" ≠ "Medium" ∧
     "High severity" ≠ "Low" ∧ "High severity" ≠ "Info") := by
  refine ⟨by decide, by decide, by decide, by decide, by decide⟩

/-! ## Backend Adapters: reply-field extraction (C7)

The three `getResponse` bodies extract the reply text from the parsed
response JSON:

* Flowise  (part_004 line 99):
  `response.data?.text || response.data?.response || JSON.stringify(response.data) || ""`
* OpenAI   (part_004 line 161): `response.data.choices[0].message.content || ""`
* Ollama   (part_004 line 223): `response.data.response || ''`

JS values are modelled with an explicit `undefined`; property access on
`undefined`/`null` throws a TypeError (which each adapter's `catch`
converts into its thrown backend error), access of a missing key yields
`undefined`, and `a?.b` maps a `undefined`/`null` receiver to
`undefined` instead of throwing.  `JSON.stringify` is an abstract
parameter. -/

inductive JVal where
  | jsUndefined : JVal
  | null : JVal
  | str (s : String) : JVal
  | num (n : Int) : JVal
  | bool (b : Bool) : JVal
  | arr (elems : List JVal) : JVal
  | obj (fields : List (String × JVal)) : JVal
  deriving Repr

def lookupField : List (String × JVal) → String → Option JVal
  | [], _ => none
  | (k, v) :: fs, key => if key = k then some v else lookupField fs key

/-- JS property access `v[key]`. -/
def getProp : JVal → String → Except Unit JVal
  | .jsUndefined, _ => .error ()
  | .null, _ => .error ()
  | .obj fields, key =>
      .ok (match lookupField fields key with
           | some v => v
           | none => .jsUndefined)
  | .arr elems, key =>
      .ok (match key.toNat? with
           | some i => (match elems.get? i with | some v => v | none => .jsUndefined)
           | none => .jsUndefined)
  | .str _, _ => .ok .jsUndefined
  | .num _, _ => .ok .jsUndefined
  | .bool _, _ => .ok .jsUndefined

theorem getProp_obj (fields : List (String × JVal)) (key : String) :
    getProp (.obj fields) key =
      .ok (match lookupField fields key with
           | some v => v
           | none => .jsUndefined) := rfl

/-- JS optional chaining `v?.key`: never throws. -/
def optGet (v : JVal) (key : String) : JVal :=
  match getProp v key with
  | .ok r => r
  | .error _ => .jsUndefined

/-- JS truthiness. -/
def truthy : JVal → Bool
  | .jsUndefined => false
  | .null => false
  | .str s => !(s = "")
  | .num n => !(n = 0)
  | .bool b => b
  | .arr _ => true
  | .obj _ => true

/-- JS `a || b`. -/
def jsOr (a b : JVal) : JVal := if truthy a then a else b

/-- Flowise: `data?.text || data?.response || JSON.stringify(data) || ""`
(total — optional chaining never throws). -/
def flowiseGetText (stringifyFn : JVal → JVal) (data : JVal) : JVal :=
  jsOr (jsOr (jsOr (optGet data "text") (optGet data "response"))
    (stringifyFn data)) (.str "")

/-- OpenAI: `data.choices[0].message.content || ""` — plain property
accesses that throw on an absent intermediate object. -/
def openaiGetText (data : JVal) : Except Unit JVal := do
  let choices ← getProp data "choices"
  let c0 ← getProp choices "0"
  let msg ← getProp c0 "message"
  let content ← getProp msg "content"
  pure (jsOr content (.str ""))

/-- Ollama: `data.response || ''`. -/
def ollamaGetText (data : JVal) : Except Unit JVal := do
  let r ← getProp data "response"
  pure (jsOr r (.str ""))

/-- Counterexample to C7 as stated: an HTTP-successful OpenAI response
without a `choices` field makes the extraction throw (the adapter
rethrows it as its backend error) — it does not fall back to a raw-JSON
stringification. -/
theorem adapter_absent_field_throws :
    openaiGetText (.obj [("id", .str "x")]) = .error () := rfl

/-- C7 (amended): only the Flowise adapter tolerates absent/alternate
reply fields without throwing, falling back `text` → `response` →
raw-JSON stringification → `""`; the OpenAI extractor throws whenever
`choices` is absent (and falls back only to `""`, never a
stringification); the Ollama extractor throws exactly on a
`null`/`undefined` body and otherwise falls back to `""`. -/
theorem adapter_fallback_spec :
    (∀ (f : JVal → JVal) (d : JVal),
      (truthy (optGet d "text") = true →
        flowiseGetText f d = optGet d "text") ∧
      (truthy (optGet d "text") = false → truthy (optGet d "response") = true →
        flowiseGetText f d = optGet d "response") ∧
      (truthy (optGet d "text") = false → truthy (optGet d "response") = false →
        truthy (f d) = true → flowiseGetText f d = f d) ∧
      (truthy (optGet d "text") = false → truthy (optGet d "response") = false →
        truthy (f d) = false → flowiseGetText f d = .str "")) ∧
    (∀ fields, lookupField fields "choices" = none →
      openaiGetText (.obj fields) = .error ()) ∧
    (∀ fields, ∃ v, ollamaGetText (.obj fields) = .ok v) ∧
    ollamaGetText .null = .error () := by
  refine ⟨?_, ?_, ?_, rfl⟩
  · intro f d
    refine ⟨?_, ?_, ?_, ?_⟩
    · intro h1
      simp [flowiseGetText, jsOr, h1]
    · intro h1 h2
      simp [flowiseGetText, jsOr, h1, h2]
    · intro h1 h2 h3
      simp [flowiseGetText, jsOr, h1, h2, h3]
    · intro h1 h2 h3
      simp [flowiseGetText, jsOr, h1, h2, h3]
  · intro fields h
    have hc : getProp (.obj fields) "choices" = .ok .jsUndefined := by
      rw [getProp_obj, h]
    rw [openaiGetText, hc]
    rfl
  · intro fields
    cases hl : lookupField fields "response" with
    | none =>
        refine ⟨jsOr .jsUndefined (.str ""), ?_⟩
        have hr : getProp (.obj fields) "response" = .ok .jsUndefined := by
          rw [getProp_obj, hl]
        rw [ollamaGetText, hr]
        rfl
    | some v =>
        refine ⟨jsOr v (.str ""), ?_⟩
        have hr : getProp (.obj fields) "response" = .ok v := by
          rw [getProp_obj, hl]
        rw [ollamaGetText, hr]
        rfl

/-- Witness for `adapter_fallback_spec` at concrete response bodies. -/
theorem adapter_fallback_spec_witness :
    flowiseGetText (fun _ => .str "{}") (.obj [("text", .str "hi")]) =
      .str "hi" ∧
    flowiseGetText (fun _ => .str "{}") (.obj [("other", .str "x")]) =
      .str "{}" ∧
    openaiGetText (.obj [("id", .str "x")]) = .error () ∧
    (∃ v, ollamaGetText (.obj [("done", .bool true)]) = .ok v) := by
  have h := adapter_fallback_spec
  have h1 := (h.1 (fun _ => .str "{}") (.obj [("text", .str "hi")])).1 (by decide)
  have h2 := ((h.1 (fun _ => .str "{}") (.obj [("other", .str "x")])).2.2.1
    (by decide) (by decide) (by decide))
  have h3 := h.2.1 [("id", .str "x")] rfl
  have h4 := h.2.2.1 [("done", .bool true)]
  exact ⟨by rw [h1]; rfl, by rw [h2], h3, h4⟩

/-! ## Batch Scheduler file enumeration (`findFiles`, C8)

Two revisions exist in the repository.

part_004 lines 487–512 (stack-based, one shared `fileCount`, `return`
exits the whole generator):

```
let fileCount = 0;
for (const folder of folders) {
    const stack = [folder.uri];
    while (stack.length && fileCount < config.maxFiles) {
        const dir = stack.pop()!;
        for (const [name, type] of await vscode.workspace.fs.readDirectory(dir)) {
            if (type === vscode.FileType.File && shouldIncludeFile(uri, config)) {
                if (++fileCount > config.maxFiles) { return; }
                yield uri;
            } else if (type === vscode.FileType.Directory) { stack.push(uri); }
        }
    }
}
```

extension.ts lines 287–320 (recursive; each recursive `yield*
findFiles([{uri}], config)` call creates a new generator whose local
`fileCount` restarts at 0):

```
const maxFiles = config.get<number>("maxFiles", 1000);
let fileCount = 0;
for (const folder of workspaceFolders) {
    const entries = await vscode.workspace.fs.readDirectory(folder.uri);
    for (const [name, type] of entries) {
        if (fileCount >= maxFiles) { return; }
        if (type === vscode.FileType.File && shouldIncludeFile(uri, config)) {
            fileCount++;
            yield uri;
        } else if (type === vscode.FileType.Directory) {
            yield* findFiles([{ uri } as vscode.WorkspaceFolder], config);
        }
    }
}
```

A directory tree is modelled as entries carrying their path; the
inclusion filter is an abstract predicate. -/

inductive Entry where
  | file (path : String)
  | dir (path : String) (entries : List Entry)
  deriving Repr

/-- The part_004 walk: current directory's remaining entries, the stack
of pending directories (most recently pushed first), the running file
count.  Returns the yielded paths, the final count, and whether the
generator `return`ed (hit the cap). -/
def walkP4 (inc : String → Bool) (maxFiles : Nat) :
    List Entry → List (List Entry) → Nat → List String × Nat × Bool
  | [], stack, count =>
      match stack with
      | [] => ([], count, false)
      | d :: rest =>
          if count < maxFiles then walkP4 inc maxFiles d rest count
          else ([], count, false)
  | .file p :: es, stack, count =>
      if inc p then
        if count + 1 > maxFiles then ([], count + 1, true)
        else
          let r := walkP4 inc maxFiles es stack (count + 1)
          (p :: r.1, r.2)
      else walkP4 inc maxFiles es stack count
  | .dir _ sub :: es, stack, count =>
      walkP4 inc maxFiles es (sub :: stack) count
  termination_by cur stack _ => (sizeOf cur + sizeOf stack : Nat)
  decreasing_by all_goals (simp_all; try omega)

/-- part_004 `findFiles` over workspace folders (each folder is its
entry list); a `return` abandons the remaining folders too. -/
def findFilesP4 (inc : String → Bool) (maxFiles : Nat) :
    List (List Entry) → Nat → List String
  | [], _ => []
  | folder :: folders, count =>
      let r := walkP4 inc maxFiles [] [folder] count
      if r.2.2 then r.1 else r.1 ++ findFilesP4 inc maxFiles folders r.2.1

/-- The extension.ts walk of one directory's entries: `count` is this
invocation's own `fileCount`; recursion into a subdirectory starts a new
invocation whose count restarts at 0. -/
def findFilesExtGo (inc : String → Bool) (maxFiles : Nat) :
    List Entry → Nat → List String
  | [], _ => []
  | e :: es, count =>
      if maxFiles ≤ count then []
      else
        match e with
        | .file p =>
            if inc p then p :: findFilesExtGo inc maxFiles es (count + 1)
            else findFilesExtGo inc maxFiles es count
        | .dir _ sub =>
            findFilesExtGo inc maxFiles sub 0 ++
              findFilesExtGo inc maxFiles es count

/-- extension.ts `findFiles` on one workspace root. -/
def findFilesExt (inc : String → Bool) (maxFiles : Nat)
    (entries : List Entry) : List String :=
  findFilesExtGo inc maxFiles entries 0

/-- The running invariant of the part_004 walk: starting below the cap,
a run that did not `return` ends below the cap having yielded exactly
the count increase, and a run that did `return` has still yielded no
more than the remaining allowance. -/
theorem walkP4_invariant (inc : String → Bool) (maxFiles : Nat) :
    ∀ (cur : List Entry) (stack : List (List Entry)) (count : Nat),
      count ≤ maxFiles →
      ((walkP4 inc maxFiles cur stack count).2.2 = false →
        (walkP4 inc maxFiles cur stack count).2.1 ≤ maxFiles ∧
        (walkP4 inc maxFiles cur stack count).2.1 =
          count + (walkP4 inc maxFiles cur stack count).1.length) ∧
      ((walkP4 inc maxFiles cur stack count).2.2 = true →
        (walkP4 inc maxFiles cur stack count).1.length + count ≤ maxFiles) := by
  intro cur stack count
  induction cur, stack, count using walkP4.induct inc maxFiles with
  | case1 count =>
      intro hcount
      simp only [walkP4]
      exact ⟨fun _ => ⟨hcount, rfl⟩, fun h => by simp at h⟩
  | case2 count d rest hlt ih =>
      intro hcount
      simp only [walkP4, hlt, if_pos]
      exact ih hcount
  | case3 count d rest hlt =>
      intro hcount
      simp only [walkP4, hlt, if_neg, not_false_iff]
      exact ⟨fun _ => ⟨hcount, rfl⟩, fun h => by simp at h⟩
  | case4 p es stack count hinc hgt =>
      intro hcount
      simp only [walkP4, hinc, hgt, if_pos]
      refine ⟨fun h => by simp at h, fun _ => ?_⟩
      simpa using hcount
  | case5 p es stack count hinc hgt ih =>
      intro hcount
      have hcount' : count + 1 ≤ maxFiles := by omega
      have ih' := ih hcount'
      simp only [walkP4, hinc, hgt, if_pos, if_neg, not_false_iff]
      constructor
      · intro hst
        obtain ⟨hle, heq⟩ := ih'.1 hst
        refine ⟨hle, ?_⟩
        simp only [List.length_cons]
        omega
      · intro hst
        have := ih'.2 hst
        simp only [List.length_cons]
        omega
  | case6 p es stack count hinc ih =>
      intro hcount
      simp only [walkP4, hinc, if_neg, Bool.false_eq_true, not_false_iff]
      exact ih hcount
  | case7 path sub es stack count ih =>
      intro hcount
      simp only [walkP4]
      exact ih hcount

theorem findFilesP4_bound (inc : String → Bool) (maxFiles : Nat) :
    ∀ (folders : List (List Entry)) (count : Nat), count ≤ maxFiles →
      (findFilesP4 inc maxFiles folders count).length + count ≤ maxFiles := by
  intro folders
  induction folders with
  | nil =>
      intro count hcount
      simpa [findFilesP4] using hcount
  | cons folder folders ih =>
      intro count hcount
      have hinv := walkP4_invariant inc maxFiles [] [folder] count hcount
      rw [findFilesP4]
      cases hst : (walkP4 inc maxFiles [] [folder] count).2.2
      · simp only [hst, Bool.false_eq_true, if_false]
        obtain ⟨hle, heq⟩ := hinv.1 hst
        have hrec := ih (walkP4 inc maxFiles [] [folder] count).2.1 hle
        simp only [List.length_append]
        omega
      · simp only [hst, if_true]
        exact hinv.2 hst

/-- C8: the bounded walk.  The part_004 `findFiles` (shared counter,
generator-wide `return`) yields at most `maxFiles` paths over any
workspace, however nested; but the recursive extension.ts revision
restarts its local counter in every subdirectory call, and on a nested
tree with `maxFiles = 1` it yields two files — the claimed global bound
fails there. -/
theorem findFiles_max_files_spec :
    (∀ (inc : String → Bool) (maxFiles : Nat) (folders : List (List Entry)),
      (findFilesP4 inc maxFiles folders 0).length ≤ maxFiles) ∧
    findFilesExt (fun _ => true) 1
      [Entry.dir "d" [Entry.file "d/a.ts"], Entry.file "b.ts"] =
      ["d/a.ts", "b.ts"] ∧
    (findFilesExt (fun _ => true) 1
      [Entry.dir "d" [Entry.file "d/a.ts"], Entry.file "b.ts"]).length > 1 := by
  have hval : findFilesExt (fun _ => true) 1
      [Entry.dir "d" [Entry.file "d/a.ts"], Entry.file "b.ts"] =
      ["d/a.ts", "b.ts"] := by
    simp [findFilesExt, findFilesExtGo]
  refine ⟨?_, hval, ?_⟩
  · intro inc maxFiles folders
    have := findFilesP4_bound inc maxFiles folders 0 (Nat.zero_le _)
    omega
  · rw [hval]
    decide

end LLMCoder
